import Mathlib

/-!
Verification development for the Spam-Rectifier repository.

This file shallowly embeds the classifier core of the repository
(`src/spamrectifier/features.py`, `model.py`, `monitoring.py`) into Lean:
pure Python functions become Lean functions, Python `float` arithmetic is
modelled by exact real arithmetic (`ℝ`), Python exceptions become an
explicit `Except` error channel, and Python dicts become association lists
that preserve insertion order (as Python dicts do).  Theorems at the end of
the file settle the frozen specification claims against this embedding.
-/

namespace SpamRectifier

/-! ## features.py : FeatureConfig -/

/-- `FeatureConfig` from `features.py` (a frozen dataclass with defaults
`use_bigrams=True, min_token_length=2, redact_emails=True, redact_urls=True,
redact_numbers=False`). `min_token_length` is a Python `int`; it is only ever
compared against token lengths, so it is embedded as `Nat`. -/
structure FeatureConfig where
  use_bigrams : Bool := true
  min_token_length : Nat := 2
  redact_emails : Bool := true
  redact_urls : Bool := true
  redact_numbers : Bool := false
deriving DecidableEq, Repr

/-! ## Character classes

The regexes in `features.py` are ASCII: `TOKEN_RE = [a-z0-9]+(?:['-][a-z0-9]+)?`,
and the redaction regexes use the classes below. `\b` is a word boundary with
word characters `[A-Za-z0-9_]`. -/

/-- The apostrophe character `'` (written via its code point). -/
def apos : Char := Char.ofNat 39

/-- `[a-z0-9]`: a character matched by `TOKEN_RE`'s base class (the text has
already been lowercased when `TOKEN_RE` runs). -/
def isTokChar (c : Char) : Bool :=
  (97 ≤ c.toNat && c.toNat ≤ 122) || (48 ≤ c.toNat && c.toNat ≤ 57)

/-- `['-]`: the optional internal joiner of `TOKEN_RE`. -/
def isJoinChar (c : Char) : Bool := c = apos || c = '-'

/-- ASCII letter (either case; the redaction regexes are `re.IGNORECASE`). -/
def isAsciiAlpha (c : Char) : Bool :=
  (65 ≤ c.toNat && c.toNat ≤ 90) || (97 ≤ c.toNat && c.toNat ≤ 122)

/-- ASCII digit. -/
def isAsciiDigit (c : Char) : Bool := 48 ≤ c.toNat && c.toNat ≤ 57

/-- Word character for `\b` boundaries: `[A-Za-z0-9_]`. -/
def isWordChar (c : Char) : Bool := isAsciiAlpha c || isAsciiDigit c || c = '_'

/-- `[A-Z0-9._%+-]` (ignorecase): local part of `EMAIL_RE`. -/
def isLocalChar (c : Char) : Bool :=
  isAsciiAlpha c || isAsciiDigit c || c = '.' || c = '_' || c = '%' || c = '+' || c = '-'

/-- `[A-Z0-9.-]` (ignorecase): domain part of `EMAIL_RE`. -/
def isDomChar (c : Char) : Bool :=
  isAsciiAlpha c || isAsciiDigit c || c = '.' || c = '-'

/-- `\S`: non-whitespace, for `URL_RE`. -/
def isNonSpace (c : Char) : Bool :=
  !(c = ' ' || c = '\t' || c = '\n' || c = '\r' || c = Char.ofNat 11 || c = Char.ofNat 12)

/-- Word-boundary test between a previous character (`none` at start of
string) and the current character: `\b` holds iff exactly one side is a word
character. -/
def isBoundary (prev : Option Char) (cur : Char) : Bool :=
  ((prev.map isWordChar).getD false) != isWordChar cur

/-! ## Redaction matchers

Each matcher, given the character before the current position and the rest of
the text, returns the length of the (leftmost) regex match starting exactly
here, if any.  They implement the Python regexes of `features.py` including
the backtracking behaviour of the `re` engine (greedy runs that give back
characters only where a following mandatory piece forces it). -/

/-- Try to match `EMAIL_RE = \b[A-Z0-9._%+-]+@[A-Z0-9.-]+\.[A-Z]{2,}\b`
(ignorecase) at the start of `cs`; `prev` is the character before `cs`.
The engine takes the maximal local-part and domain runs and then backtracks
the domain run to the latest dot that is followed by at least two letters
ending at a word boundary. -/
def tryEmail (prev : Option Char) (cs : List Char) : Option Nat :=
  let lp := cs.takeWhile isLocalChar
  if lp.isEmpty then none
  else if !isBoundary prev (lp.headD ' ') then none
  else
    let rest := cs.drop lp.length
    match rest with
    | '@' :: afterAt =>
      let dom := afterAt.takeWhile isDomChar
      let afterDom := afterAt.drop dom.length
      -- candidate dot positions inside the domain run, latest first
      let found := (List.range dom.length).reverse.find? fun i =>
        decide (1 ≤ i) && decide (dom.getD i ' ' = '.') &&
          (let tld := (dom.drop (i+1)).takeWhile isAsciiAlpha
           let after := (dom.drop (i+1)).drop tld.length
           decide (2 ≤ tld.length) &&
             (match after.head? with
              | some c => !isWordChar c
              | none => match afterDom.head? with
                        | some c => !isWordChar c
                        | none => true))
      match found with
      | some i =>
        let tld := (dom.drop (i+1)).takeWhile isAsciiAlpha
        some (lp.length + 1 + i + 1 + tld.length)
      | none => none
    | _ => none

/-- Case-insensitive literal match of `pat` as a prefix of `cs`. -/
def matchCI : List Char → List Char → Bool
  | [], _ => true
  | _ :: _, [] => false
  | p :: ps, c :: cs => (p.toLower = c.toLower) && matchCI ps cs

/-- Try to match `URL_RE = https?://\S+|www\.\S+` (ignorecase) at the start
of `cs`. -/
def tryUrl (_prev : Option Char) (cs : List Char) : Option Nat :=
  let tail4 := cs.drop 4
  let httpsBranch :=
    if matchCI "http".toList cs then
      if matchCI "s://".toList tail4 then
        let run := (cs.drop 8).takeWhile isNonSpace
        if run.isEmpty then none else some (8 + run.length)
      else if matchCI "://".toList tail4 then
        let run := (cs.drop 7).takeWhile isNonSpace
        if run.isEmpty then none else some (7 + run.length)
      else none
    else none
  match httpsBranch with
  | some n => some n
  | none =>
    if matchCI "www.".toList cs then
      let run := tail4.takeWhile isNonSpace
      if run.isEmpty then none else some (4 + run.length)
    else none

/-- Try to match `NUMBER_RE = \b\d{2,}\b` at the start of `cs`. -/
def tryNumber (prev : Option Char) (cs : List Char) : Option Nat :=
  let run := cs.takeWhile isAsciiDigit
  if run.length < 2 then none
  else if !isBoundary prev (run.headD ' ') then none
  else
    match (cs.drop run.length).head? with
    | some c => if isWordChar c then none else some run.length
    | none => some run.length

/-- `re.sub` driver: scan the text left to right; wherever `try?` reports a
match of length `n ≥ 1`, emit `repl` and continue after the match (the
character preceding the next position is the last character of the matched
original text, as in Python, which computes boundaries on the input string).
`fuel` is an upper bound on the number of scanning steps; each step consumes
at least one character, so `fuel = cs.length` suffices. -/
def subScan (try? : Option Char → List Char → Option Nat) (repl : List Char) :
    Nat → Option Char → List Char → List Char
  | 0, _, cs => cs
  | _ + 1, _, [] => []
  | fuel + 1, prev, c :: cs =>
    match try? prev (c :: cs) with
    | some n =>
      repl ++ subScan try? repl fuel (some ((c :: cs).getD (n - 1) c)) ((c :: cs).drop n)
    | none => c :: subScan try? repl fuel (some c) cs

/-- One regex substitution pass over a whole character list. -/
def subAll (try? : Option Char → List Char → Option Nat) (repl : String)
    (cs : List Char) : List Char :=
  subScan try? repl.toList cs.length none cs

/-- `_redact(text, config)` from `features.py`: the three optional
substitution passes, in order, each on the previous pass's output. -/
def redact (cs : List Char) (config : FeatureConfig) : List Char :=
  let r1 := if config.redact_emails then subAll tryEmail " <email> " cs else cs
  let r2 := if config.redact_urls then subAll tryUrl " <url> " r1 else r1
  let r3 := if config.redact_numbers then subAll tryNumber " <number> " r2 else r2
  r3

/-- `normalize(text, config)`: redact, then lowercase.  (Lean's
`Char.toLower` lowers ASCII letters; non-ASCII case differences cannot
affect tokenization, whose tokens are drawn from `[a-z0-9'-]` only.) -/
def normalizeChars (cs : List Char) (config : FeatureConfig) : List Char :=
  (redact cs config).map Char.toLower

/-! ## TOKEN_RE scanner

`TOKEN_RE.findall` on the lowercased text: maximal runs of `[a-z0-9]`
optionally extended, once, by a joiner `['-]` followed by another maximal
`[a-z0-9]` run.  A small automaton over the character list; each transition
consumes exactly one character, so the recursion is structural. -/

/-- Scanner state: outside a token / inside the first run / just after a
candidate joiner / inside the second run. -/
inductive ScanState where
  | out : ScanState
  | run1 (acc : List Char) : ScanState
  | afterJoin (acc : List Char) (j : Char) : ScanState
  | run2 (acc : List Char) (j : Char) (acc2 : List Char) : ScanState

/-- Tokens already complete in a final state. -/
def flushState : ScanState → List (List Char)
  | .out => []
  | .run1 acc => [acc]
  | .afterJoin acc _ => [acc]
  | .run2 acc j acc2 => [acc ++ j :: acc2]

/-- The `TOKEN_RE.findall` automaton. -/
def scanAux : List Char → ScanState → List (List Char)
  | [], st => flushState st
  | c :: cs, .out =>
    if isTokChar c then scanAux cs (.run1 [c]) else scanAux cs .out
  | c :: cs, .run1 acc =>
    if isTokChar c then scanAux cs (.run1 (acc ++ [c]))
    else if isJoinChar c then scanAux cs (.afterJoin acc c)
    else acc :: scanAux cs .out
  | c :: cs, .afterJoin acc j =>
    if isTokChar c then scanAux cs (.run2 acc j [c])
    else acc :: scanAux cs .out
  | c :: cs, .run2 acc j acc2 =>
    if isTokChar c then scanAux cs (.run2 acc j (acc2 ++ [c]))
    else (acc ++ j :: acc2) :: scanAux cs .out

/-- `TOKEN_RE.findall(normalized)`, as strings. -/
def findTokens (cs : List Char) : List String :=
  (scanAux cs .out).map List.asString

/-- The bigram comprehension of `tokenize`:
`[f"{tokens[i]}_{tokens[i+1]}" for i in range(len(tokens) - 1)]`. -/
def bigramList (tokens : List String) : List String :=
  (List.range (tokens.length - 1)).map fun i =>
    tokens.getD i "" ++ "_" ++ tokens.getD (i + 1) ""

/-- `tokenize(text, config)` from `features.py`. -/
def tokenize (text : String) (config : FeatureConfig) : List String :=
  let normalized := normalizeChars text.toList config
  let tokens := (findTokens normalized).filter
    fun token => config.min_token_length ≤ token.length
  if !config.use_bigrams then tokens
  else tokens ++ bigramList tokens

/-! ## Python dicts as association lists

Python dicts preserve insertion order; we embed them as association lists
where assignment updates an existing key in place and appends a fresh key at
the end, exactly mirroring dict insertion-order semantics. -/

/-- `d.get(k)` / `d[k]` lookup: the binding of `k` (keys are unique in a
Python dict). -/
def dlookup : List (String × α) → String → Option α
  | [], _ => none
  | p :: l, k => if p.1 = k then some p.2 else dlookup l k

/-- `d.get(k, dflt)`. -/
def getD (l : List (String × α)) (k : String) (dflt : α) : α :=
  (dlookup l k).getD dflt

/-- `d[k] = v`: overwrite in place, or append a new binding at the end (the
insertion-order position Python gives a fresh key). -/
def setA : List (String × α) → String → α → List (String × α)
  | [], k, v => [(k, v)]
  | p :: l, k, v => if p.1 = k then (k, v) :: l else p :: setA l k v

/-- `d[k] = d.get(k, 0) + c`: the counting update used by `Counter` and by
training's count accumulation. -/
def bumpI (l : List (String × Int)) (k : String) (c : Int) : List (String × Int) :=
  setA l k (getD l k 0 + c)

/-- `sum(d.values())`. -/
def sumVals (l : List (String × Int)) : Int :=
  (l.map Prod.snd).sum

/-- The keys of a dict, in insertion order. -/
def keysOf (l : List (String × α)) : List String := l.map Prod.fst

/-- `Counter(tokens)` from `featurize`: token → multiplicity, keys in first
occurrence order. -/
def counterOf (tokens : List String) : List (String × Int) :=
  tokens.foldl (fun acc t => bumpI acc t 1) []

/-! ## Python exceptions

The error taxonomy: the first four constructors are the exceptions the code
actually raises (`ValueError`, `TypeError`, `ZeroDivisionError`, `KeyError`);
`emptyModel` and `corruptModel` are the explicit error kinds §7 of the spec
demands (`EmptyModel`, `CorruptModel`) — they are representable here so that
the spec's claims can be stated, but no function of the embedded code ever
produces them. -/
inductive PyError where
  | valueError : PyError
  | typeError : PyError
  | zeroDivisionError : PyError
  | keyError (k : String) : PyError
  | emptyModel : PyError
  | corruptModel : PyError
deriving DecidableEq, Repr

/-- `d[k]` with a `KeyError` when absent. -/
def lookupE (l : List (String × α)) (k : String) : Except PyError α :=
  match dlookup l k with
  | some v => .ok v
  | none => .error (.keyError k)

/-! ## model.py : NaiveBayesModel -/

/-- The `NaiveBayesModel` dataclass.  Counts are Python `int`s (`ℤ`);
`vocabulary` is a Python `set` (`Finset String`). -/
structure NaiveBayesModel where
  label_counts : List (String × Int)
  token_counts : List (String × List (String × Int))
  total_tokens : List (String × Int)
  vocabulary : Finset String
  config : FeatureConfig
  trained_at : String
  dataset_size : Int
deriving DecidableEq

namespace NaiveBayesModel

/-- `labels` property: `sorted(label_counts.keys())`. -/
def labels (m : NaiveBayesModel) : List String :=
  List.insertionSort (· ≤ ·) (keysOf m.label_counts)

/-- Intermediate training state (the four accumulators of `train`). -/
structure TrainState where
  label_counts : List (String × Int)
  token_counts : List (String × List (String × Int))
  total_tokens : List (String × Int)
  vocabulary : Finset String

/-- One iteration of `train`'s loop, for one `(text, label)` document. -/
def trainStep (config : FeatureConfig) (st : TrainState) (doc : String × String) :
    TrainState :=
  let features := counterOf (tokenize doc.1 config)
  let label := doc.2
  let lc := bumpI st.label_counts label 1
  let bucket0 := getD st.token_counts label []
  let bucket := features.foldl (fun b p => bumpI b p.1 p.2) bucket0
  let tc := setA st.token_counts label bucket
  let voc := features.foldl (fun v p => insert p.1 v) st.vocabulary
  let tt := setA st.total_tokens label (sumVals bucket)
  ⟨lc, tc, tt, voc⟩

/-- `NaiveBayesModel.train(texts, labels, config)`.  `zip(..., strict=True)`
raises `ValueError` when the sequences have different lengths (the spec calls
this condition `ShapeMismatch`); `datetime.now` is passed in explicitly as
`now`. -/
def train (now : String) (texts : List String) (labelsIn : List String)
    (config : FeatureConfig) : Except PyError NaiveBayesModel :=
  if texts.length ≠ labelsIn.length then .error .valueError
  else
    let st := (texts.zip labelsIn).foldl (trainStep config) ⟨[], [], [], ∅⟩
    .ok ⟨st.label_counts, st.token_counts, st.total_tokens, st.vocabulary,
         config, now, sumVals st.label_counts⟩

/-- `max(len(self.vocabulary), 1)`. -/
def vocabSize (m : NaiveBayesModel) : Int :=
  max (m.vocabulary.card : Int) 1

/-- `sum(self.label_counts.values())`. -/
def totalDocs (m : NaiveBayesModel) : Int :=
  sumVals m.label_counts

/-- `math.log(num / den)` on Python floats: division by zero raises
`ZeroDivisionError`, a non-positive argument to `log` raises `ValueError`
(math domain error); otherwise the real logarithm of the ratio. -/
noncomputable def logRatioE (num den : Int) : Except PyError ℝ :=
  if den = 0 then .error .zeroDivisionError
  else if num * den ≤ 0 then .error .valueError
  else .ok (Real.log ((num : ℝ) / (den : ℝ)))

/-- The per-label body of `predict_proba`'s loop: log-prior plus the
Laplace-smoothed log-likelihood over the query's token counter. -/
noncomputable def labelScoreE (m : NaiveBayesModel) (feats : List (String × Int))
    (label : String) : Except PyError ℝ := do
  let prior ← logRatioE (getD m.label_counts label 0) (totalDocs m)
  let labelTotal ← lookupE m.total_tokens label
  let bucket ← lookupE m.token_counts label
  feats.foldlM
    (fun acc p => do
      let tokenCount := getD bucket p.1 0
      let term ← logRatioE (tokenCount + 1) (labelTotal + vocabSize m)
      pure (acc + (p.2 : ℝ) * term))
    prior

/-- `predict_proba(text)`: scores for every label in sorted order, then the
log-sum-exp normalization.  `max()` over an empty sequence (a model with no
labels) raises `ValueError`. -/
noncomputable def predict_proba (m : NaiveBayesModel) (text : String) :
    Except PyError (List (String × ℝ)) := do
  let scores ← m.labels.mapM fun label => do
    pure (label, ← labelScoreE m (counterOf (tokenize text m.config)) label)
  match scores with
  | [] => .error .valueError
  | s :: ss =>
    let maxLog := (ss.map Prod.snd).foldl max s.2
    let exps := (s :: ss).map fun q => (q.1, Real.exp (q.2 - maxLog))
    let total := (exps.map Prod.snd).sum
    pure (exps.map fun q => (q.1, q.2 / total))

/-- Python's `max(iterable, key=...)` over an association list by value:
the first entry whose value is maximal (later entries replace the current
best only when strictly greater). -/
noncomputable def argmaxFirst (p : String × ℝ) (ps : List (String × ℝ)) :
    String × ℝ :=
  ps.foldl (fun best q => if best.2 < q.2 then q else best) p

/-- `predict(text)`: the key of `predict_proba`'s maximal value (first in
dict iteration order on ties). -/
noncomputable def predict (m : NaiveBayesModel) (text : String) :
    Except PyError String := do
  let probabilities ← m.predict_proba text
  match probabilities with
  | [] => .error .valueError
  | p :: ps => pure (argmaxFirst p ps).1

/-- The value returned by `explain`. -/
structure Explanation where
  prediction : String
  probabilities : List (String × ℝ)
  top_tokens : List (String × ℝ)

/-- The per-label body of `explain`'s loop: the likelihood-only score
(`label_log`) together with the per-token contributions, in query-token
order. -/
noncomputable def explainLabelE (m : NaiveBayesModel) (feats : List (String × Int))
    (label : String) : Except PyError (ℝ × List (String × ℝ)) :=
  feats.foldlM
    (fun acc p => do
      let bucket ← lookupE m.token_counts label
      let tokenCount := getD bucket p.1 0
      let labelTotal ← lookupE m.total_tokens label
      let r ← logRatioE (tokenCount + 1) (labelTotal + vocabSize m)
      let contribution := (p.2 : ℝ) * r
      pure (acc.1 + contribution, acc.2 ++ [(p.1, contribution)]))
    (0, [])

/-- `explain(text, top_n)`: note that `prediction` is the arg-max of the
likelihood-only `label_scores` (no prior), while `predict` maximises
prior + likelihood. -/
noncomputable def explain (m : NaiveBayesModel) (text : String) (top_n : Nat) :
    Except PyError Explanation := do
  let results ← m.labels.mapM fun label => do
    pure (label, ← explainLabelE m (counterOf (tokenize text m.config)) label)
  match results with
  | [] => .error .valueError
  | r :: rs =>
    let prediction :=
      (argmaxFirst (r.1, r.2.1) (rs.map fun q => (q.1, q.2.1))).1
    let contribs := getD ((r :: rs).map fun q => (q.1, q.2.2)) prediction []
    let sortedTokens := List.insertionSort (fun a b => b.2 ≤ a.2) contribs
    let probabilities ← m.predict_proba text
    pure ⟨prediction, probabilities, sortedTokens.take top_n⟩

/-- `top_tokens(label, top_n)`: smoothed log-likelihood of every token the
label has seen, sorted descending, truncated. -/
noncomputable def top_tokens (m : NaiveBayesModel) (label : String) (top_n : Nat) :
    Except PyError (List (String × ℝ)) := do
  let labelTotal ← lookupE m.total_tokens label
  let bucket ← lookupE m.token_counts label
  let scored ← bucket.mapM fun p => do
    pure (p.1, ← logRatioE (p.2 + 1) (labelTotal + vocabSize m))
  pure ((List.insertionSort (fun a b => b.2 ≤ a.2) scored).take top_n)

end NaiveBayesModel

/-! ## Persistence codec

`save` writes `json.dumps(payload)` and `load` starts from `json.loads`; the
byte layer is a bijection on the documents involved (objects, arrays,
strings, arbitrary-precision ints, booleans, null), so the embedding works
directly with the parsed document.  JSON floats do not occur in saved models
and are not represented. -/

/-- A parsed JSON document. -/
inductive JVal where
  | jnull : JVal
  | jbool (b : Bool) : JVal
  | jint (n : Int) : JVal
  | jstr (s : String) : JVal
  | jarr (xs : List JVal) : JVal
  | jobj (fields : List (String × JVal)) : JVal

/-- Python-style whitespace stripped by `int(str)`. -/
def isPySpace (c : Char) : Bool := !isNonSpace c

/-- Digits of a Python integer literal, allowing single underscores between
digits (as `int("1_000")` does). -/
def parseIntDigitsAux : Nat → List Char → Option Nat
  | acc, [] => some acc
  | acc, c :: cs =>
    if isAsciiDigit c then parseIntDigitsAux (acc * 10 + (c.toNat - 48)) cs
    else if c = '_' then
      match cs with
      | d :: ds =>
        if isAsciiDigit d then parseIntDigitsAux (acc * 10 + (d.toNat - 48)) ds
        else none
      | [] => none
    else none

/-- Parse a nonempty digit group. -/
def parseIntDigits : List Char → Option Nat
  | [] => none
  | c :: cs =>
    if isAsciiDigit c then parseIntDigitsAux (c.toNat - 48) cs else none

/-- Python's `int(s)` on a string: strip whitespace, optional sign, digits. -/
def parseIntStr (s : String) : Option Int :=
  let cs := s.toList.dropWhile isPySpace
  let cs := (cs.reverse.dropWhile isPySpace).reverse
  match cs with
  | '+' :: ds => (parseIntDigits ds).map Int.ofNat
  | '-' :: ds => (parseIntDigits ds).map fun n => -(n : Int)
  | ds => (parseIntDigits ds).map Int.ofNat

/-- Python's `int(v)` on a JSON value: ints pass through, booleans coerce to
0/1 (`bool` is an `int` subtype), numeric strings parse (`ValueError`
otherwise), and `None`/lists/dicts raise `TypeError`. -/
def pyInt : JVal → Except PyError Int
  | .jint n => .ok n
  | .jbool b => .ok (if b then 1 else 0)
  | .jstr s =>
    match parseIntStr s with
    | some n => .ok n
    | none => .error .valueError
  | .jnull => .error .typeError
  | .jarr _ => .error .typeError
  | .jobj _ => .error .typeError

/-- `{k: int(v) for k, v in j.items()}`; `.items()` on a non-dict raises
`AttributeError` (embedded as `typeError`, the nearest kind). -/
def parseIntObj : JVal → Except PyError (List (String × Int))
  | .jobj kvs => kvs.mapM fun p => do pure (p.1, ← pyInt p.2)
  | _ => .error .typeError

/-- A boolean config field: absent takes the dataclass default.  (Python's
dataclass would accept a field value of any type without checking; only
well-typed field values are representable in this embedding, and no claim
depends on ill-typed ones, which are mapped to `typeError`.) -/
def jBoolD (o : Option JVal) (dflt : Bool) : Except PyError Bool :=
  match o with
  | none => .ok dflt
  | some (.jbool b) => .ok b
  | some _ => .error .typeError

/-- The integer config field (`min_token_length`), same conventions. -/
def jNatD (o : Option JVal) (dflt : Nat) : Except PyError Nat :=
  match o with
  | none => .ok dflt
  | some (.jint n) => .ok n.toNat
  | some _ => .error .typeError

/-- `FeatureConfig(**payload["config"])`: an unexpected keyword raises
`TypeError`; a missing field takes the dataclass default. -/
def loadConfig : JVal → Except PyError FeatureConfig
  | .jobj kvs =>
    if kvs.any (fun p => !(p.1 = "use_bigrams" || p.1 = "min_token_length" ||
        p.1 = "redact_emails" || p.1 = "redact_urls" || p.1 = "redact_numbers")) then
      .error .typeError
    else do
      let ub ← jBoolD (dlookup kvs "use_bigrams") true
      let ml ← jNatD (dlookup kvs "min_token_length") 2
      let re ← jBoolD (dlookup kvs "redact_emails") true
      let ru ← jBoolD (dlookup kvs "redact_urls") true
      let rn ← jBoolD (dlookup kvs "redact_numbers") false
      pure ⟨ub, ml, re, ru, rn⟩
  | _ => .error .typeError

namespace NaiveBayesModel

/-- The `config` sub-document written by `save`. -/
def configJson (c : FeatureConfig) : JVal :=
  .jobj [("use_bigrams", .jbool c.use_bigrams),
         ("min_token_length", .jint c.min_token_length),
         ("redact_emails", .jbool c.redact_emails),
         ("redact_urls", .jbool c.redact_urls),
         ("redact_numbers", .jbool c.redact_numbers)]

/-- `save`: the persisted payload (vocabulary canonically sorted). -/
def save (m : NaiveBayesModel) : JVal :=
  .jobj [("label_counts", .jobj (m.label_counts.map fun p => (p.1, .jint p.2))),
         ("token_counts", .jobj (m.token_counts.map fun p =>
            (p.1, .jobj (p.2.map fun q => (q.1, JVal.jint q.2))))),
         ("total_tokens", .jobj (m.total_tokens.map fun p => (p.1, .jint p.2))),
         ("vocabulary", .jarr ((m.vocabulary.sort (· ≤ ·)).map .jstr)),
         ("config", configJson m.config),
         ("metadata", .jobj [("trained_at", .jstr m.trained_at),
                             ("dataset_size", .jint m.dataset_size)])]

/-- The fields of a JSON object (`payload` must be a dict). -/
def jObjFields : JVal → Except PyError (List (String × JVal))
  | .jobj fs => .ok fs
  | _ => .error .typeError

/-- `payload.get("metadata", {})`, then used as a dict (a non-dict value
would raise `AttributeError` at `metadata.get`; embedded as `typeError`,
the nearest kind). -/
def jMetaD : Option JVal → Except PyError (List (String × JVal))
  | none => .ok []
  | some (.jobj ms) => .ok ms
  | some _ => .error .typeError

/-- `{label: {token: int(count) …} …}` for `token_counts`. -/
def parseNestedObj : JVal → Except PyError (List (String × List (String × Int)))
  | .jobj kvs => kvs.mapM fun p => do pure (p.1, ← parseIntObj p.2)
  | _ => .error .typeError

/-- `set(payload["vocabulary"])`: Python would accept arbitrary hashables;
only string entries are representable here (others map to `typeError`), and
`save` only ever writes strings. -/
def parseStrList : JVal → Except PyError (List String)
  | .jarr xs => xs.mapM fun x =>
      match x with
      | .jstr s => Except.ok s
      | _ => Except.error PyError.typeError
  | _ => .error .typeError

/-- `metadata.get("trained_at", now)` (a string field). -/
def jStrD (o : Option JVal) (dflt : String) : Except PyError String :=
  match o with
  | none => .ok dflt
  | some (.jstr s) => .ok s
  | some _ => .error .typeError

/-- `load`: parse the payload in the code's evaluation order (config,
metadata, then the five model fields).  Missing keys raise `KeyError`;
`datetime.now`, used as the `trained_at` fallback, is passed in as `now`. -/
def load (now : String) (payload : JVal) : Except PyError NaiveBayesModel := do
  let fields ← jObjFields payload
  let cfgJ ← lookupE fields "config"
  let config ← loadConfig cfgJ
  let metadata ← jMetaD (dlookup fields "metadata")
  let lcJ ← lookupE fields "label_counts"
  let lc ← parseIntObj lcJ
  let tcJ ← lookupE fields "token_counts"
  let tc ← parseNestedObj tcJ
  let ttJ ← lookupE fields "total_tokens"
  let tt ← parseIntObj ttJ
  let vocJ ← lookupE fields "vocabulary"
  let voc ← parseStrList vocJ
  let trainedAt ← jStrD (dlookup metadata "trained_at") now
  let datasetSize ← pyInt (getD metadata "dataset_size" (.jint 0))
  pure ⟨lc, tc, tt, voc.toFinset, config, trainedAt, datasetSize⟩

end NaiveBayesModel

/-! ## monitoring.py : drift monitor -/

/-- `counter.update(items)`: add counts key-wise. -/
def counterUpdate (acc : List (String × Int)) (items : List (String × Int)) :
    List (String × Int) :=
  items.foldl (fun a p => bumpI a p.1 p.2) acc

/-- `_normalize(counter)`: empty dict when the total is zero, else divide
every count by the total. -/
noncomputable def normalizeDist (counter : List (String × Int)) : List (String × ℝ) :=
  let total := sumVals counter
  if total = 0 then []
  else counter.map fun p => (p.1, (p.2 : ℝ) / (total : ℝ))

/-- `token_distribution(texts, config)`. -/
noncomputable def tokenDistribution (texts : List String) (config : FeatureConfig) :
    List (String × ℝ) :=
  normalizeDist
    (texts.foldl (fun acc t => counterUpdate acc (counterOf (tokenize t config))) [])

/-- `model_token_distribution(model)`: token counts aggregated across all
labels, normalized. -/
noncomputable def modelTokenDistribution (m : NaiveBayesModel) : List (String × ℝ) :=
  normalizeDist (m.token_counts.foldl (fun acc p => counterUpdate acc p.2) [])

/-- The floor `1e-12` of `_kl_divergence`, as an exact real. -/
noncomputable def klEps : ℝ := 1 / 10 ^ 12

open Classical in
/-- `_kl_divergence(p, q)`: `Σ_{value ≠ 0} value · log₂(value / max(q.get(key, ε), ε))`. -/
noncomputable def klDiv (p q : List (String × ℝ)) : ℝ :=
  (p.map fun e =>
    if e.2 = 0 then 0
    else e.2 * Real.logb 2 (e.2 / max (getD q e.1 klEps) klEps)).sum

/-- `_jensen_shannon_divergence(p, q)`: zero on an empty key union, else the
symmetric half-sum of KL divergences against the midpoint `m`.  (Python
iterates the key set in hash order; only key membership matters to the
result, so any duplicate-free order is equivalent.) -/
noncomputable def jsd (p q : List (String × ℝ)) : ℝ :=
  let keys := (keysOf p ++ keysOf q).dedup
  if keys.isEmpty then 0
  else
    let mid := keys.map fun k => (k, (1 / 2 : ℝ) * (getD p k 0 + getD q k 0))
    (1 / 2) * (klDiv p mid + klDiv q mid)

/-- One entry of `top_shifted_tokens`. -/
structure ShiftEntry where
  token : String
  model_prob : ℝ
  data_prob : ℝ
  delta : ℝ

/-- The value returned by `drift_report`. -/
structure DriftReport where
  js_divergence : ℝ
  top_shifted_tokens : List ShiftEntry
  data_size : Nat

open Classical in
/-- `drift_report(model, texts, top_n)`. -/
noncomputable def drift_report (m : NaiveBayesModel) (texts : List String)
    (top_n : Nat) : DriftReport :=
  let modelDist := modelTokenDistribution m
  let dataDist := tokenDistribution texts m.config
  let js := jsd modelDist dataDist
  let allTokens := (keysOf modelDist ++ keysOf dataDist).dedup
  let shifts := allTokens.map fun token =>
    let mp := getD modelDist token 0
    let dp := getD dataDist token 0
    ShiftEntry.mk token mp dp (dp - mp)
  let sorted := List.insertionSort (fun a b => |b.delta| ≤ |a.delta|) shifts
  ⟨js, sorted.take top_n, texts.length⟩

/-! ## Well-formedness

The `TrainedModel` invariants of §3 of the spec, satisfied by every model
`train` produces: unique keys, document counts ≥ 1, per-label maps covering
every label, and non-negative token counts/totals. -/

/-- §3's trained-model invariants. -/
def Wellformed (m : NaiveBayesModel) : Prop :=
  (keysOf m.label_counts).Nodup ∧
  (∀ p ∈ m.label_counts, 1 ≤ p.2) ∧
  (∀ p ∈ m.label_counts, (dlookup m.total_tokens p.1).isSome ∧
    (dlookup m.token_counts p.1).isSome) ∧
  (∀ p ∈ m.total_tokens, 0 ≤ p.2) ∧
  (∀ q ∈ m.token_counts, ∀ r ∈ q.2, 0 ≤ r.2)

instance (m : NaiveBayesModel) : Decidable (Wellformed m) := by
  unfold Wellformed; infer_instance

/-- The spec-side description of the bigram block: "the bigram tokens formed
by joining each adjacent pair of surviving unigrams with an underscore, in
adjacent-pair order". -/
def adjacentBigrams (tokens : List String) : List String :=
  tokens.zipWith (fun a b => a ++ "_" ++ b) tokens.tail

/-- The invariant `trainStep` maintains: `total_tokens` is pointwise the sum
of the corresponding `token_counts` bucket, and every label counted in
`label_counts` has a bucket. -/
def NaiveBayesModel.TrainInv (st : NaiveBayesModel.TrainState) : Prop :=
  (∀ l, dlookup st.total_tokens l = (dlookup st.token_counts l).map sumVals) ∧
  (∀ l, (dlookup st.label_counts l).isSome → (dlookup st.token_counts l).isSome)

/-- A model with zero labels (all maps empty). -/
def emptyModelEx : NaiveBayesModel :=
  ⟨[], [], [], ∅, ⟨false, 2, false, false, false⟩, "t", 0⟩

/-- A persisted document whose `label_counts` value is the boolean `true` —
a non-numeric count where a number is expected, squarely "malformed" in the
claim's sense. -/
def corruptDocEx : JVal :=
  .jobj [("label_counts", .jobj [("spam", .jbool true)]),
         ("token_counts", .jobj [("spam", .jobj [("win", .jint 2)])]),
         ("total_tokens", .jobj [("spam", .jint 2)]),
         ("vocabulary", .jarr [.jstr "win"]),
         ("config", NaiveBayesModel.configJson ⟨false, 2, false, false, false⟩)]

/-- The Laplace-smoothed log-likelihood part of a label's score on the
happy path (the sum accumulated by the token loops of `predict_proba` and
`explain`). -/
noncomputable def NaiveBayesModel.likScore (m : NaiveBayesModel)
    (feats : List (String × Int)) (label : String) : ℝ :=
  (feats.map fun p => (p.2 : ℝ) *
    Real.log (((getD (getD m.token_counts label []) p.1 0 + 1 : Int) : ℝ) /
      ((getD m.total_tokens label 0 + m.vocabSize : Int) : ℝ))).sum

/-- Log-prior plus log-likelihood: the value `predict_proba` computes per
label on the happy path. -/
noncomputable def NaiveBayesModel.labelScore (m : NaiveBayesModel)
    (feats : List (String × Int)) (label : String) : ℝ :=
  Real.log (((getD m.label_counts label 0 : Int) : ℝ) / (m.totalDocs : ℝ)) +
    m.likScore feats label

/-- The `(label, score)` list of `predict_proba`, in sorted label order. -/
noncomputable def NaiveBayesModel.scoreList (m : NaiveBayesModel)
    (feats : List (String × Int)) : List (String × ℝ) :=
  m.labels.map fun label => (label, m.labelScore feats label)

/-- The log-sum-exp normalization of `predict_proba`: subtract the maximal
score, exponentiate, divide by the sum of exponentials. -/
noncomputable def softmax (ps : List (String × ℝ)) : List (String × ℝ) :=
  match ps with
  | [] => []
  | s :: ss =>
    let maxLog := (ss.map Prod.snd).foldl max s.2
    let exps := (s :: ss).map fun q => (q.1, Real.exp (q.2 - maxLog))
    let total := (exps.map Prod.snd).sum
    exps.map fun q => (q.1, q.2 / total)

/-- A small well-formed two-label model used by several witnesses. -/
def wfModelEx : NaiveBayesModel :=
  ⟨[("ham", 2), ("spam", 2)], [("ham", [("aa", 3)]), ("spam", [("bb", 2)])],
   [("ham", 3), ("spam", 2)], {"aa", "bb"}, ⟨false, 2, false, false, false⟩, "t", 4⟩

/-- The `(label, likelihood-only score)` list that `explain` maximises over
(`label_scores` in the code), in sorted label order. -/
noncomputable def NaiveBayesModel.likList (m : NaiveBayesModel)
    (feats : List (String × Int)) : List (String × ℝ) :=
  m.labels.map fun label => (label, m.likScore feats label)

/-- A well-formed model with uneven priors: label "a" has 9 documents and
"b" has 1, while "b" has the stronger likelihood for token "x". -/
def explainModelEx : NaiveBayesModel :=
  ⟨[("a", 9), ("b", 1)], [("a", [("y", 2)]), ("b", [("x", 2)])],
   [("a", 2), ("b", 2)], {"x", "y"}, ⟨false, 1, false, false, false⟩, "t", 10⟩

/-- A well-formed single-label model holding `10^13` token occurrences, one
of them the token "aa": its relative frequency `10^-13` lies below the
`1e-12` floor of `_kl_divergence`, which makes the reported divergence
negative.  (Reachable by training on one document of `10^13` tokens.) -/
def driftModelEx : NaiveBayesModel :=
  ⟨[("spam", 1)], [("spam", [("aa", 1), ("bb", 9999999999999)])],
   [("spam", 10000000000000)], {"aa", "bb"}, ⟨false, 2, false, false, false⟩, "t", 1⟩

/-! ## Association-list lemmas -/

@[simp] theorem dlookup_nil {α : Type _} (k : String) :
    dlookup ([] : List (String × α)) k = none := rfl

@[simp] theorem dlookup_cons {α : Type _} (p : String × α) (l : List (String × α))
    (k : String) :
    dlookup (p :: l) k = if p.1 = k then some p.2 else dlookup l k := rfl

theorem dlookup_setA_self {α : Type _} (l : List (String × α)) (k : String) (v : α) :
    dlookup (setA l k v) k = some v := by
  induction l with
  | nil => simp [setA]
  | cons p l ih =>
    by_cases h : p.1 = k <;> simp [setA, h, ih]

theorem dlookup_setA_ne {α : Type _} (l : List (String × α)) (k : String) (v : α)
    (k' : String) (h : k' ≠ k) :
    dlookup (setA l k v) k' = dlookup l k' := by
  have hne : ¬ k = k' := fun hh => h hh.symm
  induction l with
  | nil =>
    simp only [setA, dlookup_cons, dlookup_nil]
    rw [if_neg hne]
  | cons p l ih =>
    by_cases hp : p.1 = k
    · subst hp
      have hset : setA (p :: l) p.1 v = (p.1, v) :: l := by simp [setA]
      rw [hset]
      simp only [dlookup_cons]
      rw [if_neg hne, if_neg hne]
    · simp only [setA, if_neg hp, dlookup_cons, ih]

@[simp] theorem keysOf_nil {α : Type _} : keysOf ([] : List (String × α)) = [] := rfl

@[simp] theorem keysOf_cons {α : Type _} (p : String × α) (l : List (String × α)) :
    keysOf (p :: l) = p.1 :: keysOf l := rfl

theorem dlookup_isSome_iff {α : Type _} (l : List (String × α)) (k : String) :
    (dlookup l k).isSome ↔ k ∈ keysOf l := by
  induction l with
  | nil => simp
  | cons p l ih =>
    by_cases h : p.1 = k
    · simp [h]
    · have h' : ¬ k = p.1 := fun hh => h hh.symm
      simp [h, h', ih]

theorem keysOf_setA {α : Type _} (l : List (String × α)) (k : String) (v : α) :
    keysOf (setA l k v) = keysOf l ∨ keysOf (setA l k v) = keysOf l ++ [k] := by
  induction l with
  | nil => right; rfl
  | cons p l ih =>
    by_cases h : p.1 = k
    · left; simp [setA, h]
    · rcases ih with ih | ih
      · left; simp [setA, h, ih]
      · right; simp [setA, h, ih]

/-! ## Claim C8: bigram toggling -/

theorem bigramList_eq_adjacentBigrams (tokens : List String) :
    bigramList tokens = adjacentBigrams tokens := by
  match tokens with
  | [] => rfl
  | [x] => rfl
  | x :: y :: tl =>
    have ih := bigramList_eq_adjacentBigrams (y :: tl)
    have hhead : adjacentBigrams (x :: y :: tl) =
        (x ++ "_" ++ y) :: adjacentBigrams (y :: tl) := rfl
    rw [hhead, ← ih]
    unfold bigramList
    simp only [List.length_cons, Nat.add_sub_cancel, List.range_succ_eq_map,
      List.map_cons, List.map_map]
    congr 1

/-- Claim C8: for every text and config, tokenization with bigrams enabled is
tokenization with bigrams disabled followed, as an appended suffix, by
exactly the underscore-joins of adjacent surviving unigrams, in
adjacent-pair order. -/
theorem claim_C8_bigram_toggle (t : String) (c : FeatureConfig) :
    tokenize t { c with use_bigrams := true } =
      tokenize t { c with use_bigrams := false } ++
        adjacentBigrams (tokenize t { c with use_bigrams := false }) := by
  unfold tokenize
  simp only [Bool.not_true, Bool.not_false, Bool.false_eq_true, if_false, if_true,
    bigramList_eq_adjacentBigrams]
  rfl

/-! ## Claim C9: training count invariant -/

namespace NaiveBayesModel

theorem trainStep_inv (config : FeatureConfig) (st : TrainState) (doc : String × String)
    (h : TrainInv st) : TrainInv (trainStep config st doc) := by
  obtain ⟨h1, h2⟩ := h
  constructor
  · intro l
    by_cases hl : l = doc.2
    · subst hl
      simp [trainStep, dlookup_setA_self]
    · simp only [trainStep]
      rw [dlookup_setA_ne _ _ _ _ hl, dlookup_setA_ne _ _ _ _ hl]
      exact h1 l
  · intro l hsome
    by_cases hl : l = doc.2
    · subst hl
      simp [trainStep, dlookup_setA_self]
    · simp only [trainStep] at hsome ⊢
      rw [dlookup_setA_ne _ _ _ _ hl]
      refine h2 l ?_
      rwa [bumpI, dlookup_setA_ne _ _ _ _ hl] at hsome

theorem foldl_trainStep_inv (config : FeatureConfig) (docs : List (String × String)) :
    ∀ st, TrainInv st → TrainInv (docs.foldl (trainStep config) st) := by
  induction docs with
  | nil => intro st h; exact h
  | cons d ds ih =>
    intro st h
    exact ih _ (trainStep_inv config st d h)

end NaiveBayesModel

/-- Claim C9: every model produced by `train` satisfies, for each of its
labels, that the sum of the label's token counts equals
`total_tokens[label]`. -/
theorem claim_C9_total_tokens_invariant (now : String) (texts labelsIn : List String)
    (config : FeatureConfig) (m : NaiveBayesModel)
    (h : NaiveBayesModel.train now texts labelsIn config = .ok m) :
    ∀ label ∈ m.labels, ∃ bucket,
      dlookup m.token_counts label = some bucket ∧
      dlookup m.total_tokens label = some (sumVals bucket) := by
  unfold NaiveBayesModel.train at h
  split at h
  · exact absurd h (fun hh => Except.noConfusion hh)
  · injection h with h
    subst h
    have hinv := NaiveBayesModel.foldl_trainStep_inv config (texts.zip labelsIn)
      ⟨[], [], [], ∅⟩ ⟨fun l => rfl, fun l hl => by simp at hl⟩
    obtain ⟨h1, h2⟩ := hinv
    intro label hlabel
    have hmem : label ∈ keysOf (((texts.zip labelsIn).foldl
        (NaiveBayesModel.trainStep config) ⟨[], [], [], ∅⟩).label_counts) :=
      (List.perm_insertionSort (α := String) (· ≤ ·) _).mem_iff.mp hlabel
    have hsome := (dlookup_isSome_iff _ _).mpr hmem
    have htc := h2 label hsome
    obtain ⟨bucket, hbucket⟩ := Option.isSome_iff_exists.mp htc
    refine ⟨bucket, hbucket, ?_⟩
    have hh := h1 label
    rw [hbucket] at hh
    simpa using hh

/-- Witness for C9 at a concrete training run. -/
theorem claim_C9_witness :
    ∃ m, NaiveBayesModel.train "t" ["aa bb aa"] ["spam"]
        ⟨false, 2, false, false, false⟩ = Except.ok m ∧
      ∀ label ∈ m.labels, ∃ bucket,
        dlookup m.token_counts label = some bucket ∧
        dlookup m.total_tokens label = some (sumVals bucket) :=
  ⟨_, rfl, claim_C9_total_tokens_invariant "t" ["aa bb aa"] ["spam"]
    ⟨false, 2, false, false, false⟩ _ rfl⟩

/-! ## Claim C4: persistence round trip -/

theorem mapM_jint_roundtrip (l : List (String × Int)) :
    (l.map fun p => (p.1, JVal.jint p.2)).mapM
      (fun p => do pure (p.1, ← pyInt p.2)) = Except.ok l := by
  induction l with
  | nil => rfl
  | cons p l ih =>
    rw [List.map_cons, List.mapM_cons, ih]
    rfl

theorem parseIntObj_roundtrip (l : List (String × Int)) :
    parseIntObj (JVal.jobj (l.map fun p => (p.1, JVal.jint p.2))) = Except.ok l :=
  mapM_jint_roundtrip l

theorem mapM_nested_roundtrip (l : List (String × List (String × Int))) :
    (l.map fun p => (p.1, JVal.jobj (p.2.map fun q => (q.1, JVal.jint q.2)))).mapM
      (fun p => do pure (p.1, ← parseIntObj p.2)) = Except.ok l := by
  induction l with
  | nil => rfl
  | cons p l ih =>
    rw [List.map_cons, List.mapM_cons, ih]
    show (do pure (p.1, ← parseIntObj (JVal.jobj (p.2.map fun q => (q.1, JVal.jint q.2)))) :
        Except PyError (String × List (String × Int))) >>= _ = _
    rw [parseIntObj_roundtrip]
    rfl

theorem mapM_jstr_roundtrip (xs : List String) :
    (xs.map JVal.jstr).mapM
      (fun x => match x with
        | .jstr s => Except.ok s
        | _ => Except.error PyError.typeError) = Except.ok xs := by
  induction xs with
  | nil => rfl
  | cons x xs ih =>
    rw [List.map_cons, List.mapM_cons, ih]
    rfl

theorem parseNestedObj_roundtrip (l : List (String × List (String × Int))) :
    NaiveBayesModel.parseNestedObj
      (JVal.jobj (l.map fun p =>
        (p.1, JVal.jobj (p.2.map fun q => (q.1, JVal.jint q.2))))) = Except.ok l := by
  simp only [NaiveBayesModel.parseNestedObj]
  exact mapM_nested_roundtrip l

theorem parseStrList_roundtrip (xs : List String) :
    NaiveBayesModel.parseStrList (JVal.jarr (xs.map JVal.jstr)) = Except.ok xs := by
  simp only [NaiveBayesModel.parseStrList]
  exact mapM_jstr_roundtrip xs

theorem ok_bind {α β : Type _} (x : α) (f : α → Except PyError β) :
    Except.ok x >>= f = f x := rfl

theorem loadConfig_configJson (c : FeatureConfig) :
    loadConfig (NaiveBayesModel.configJson c) = Except.ok c := by
  unfold loadConfig NaiveBayesModel.configJson
  simp only [dlookup_cons, dlookup_nil, List.any_cons, List.any_nil,
    String.reduceEq, reduceIte, ok_bind, jBoolD, jNatD, Int.toNat_natCast]
  rfl

/-- Claim C4: loading a saved model reproduces the model exactly
(`label_counts`, `token_counts`, `total_tokens`, `vocabulary`, `config`,
`trained_at` and `dataset_size` all compare equal), so every prediction,
explanation and drift report on the loaded model coincides with the
original's. -/
theorem claim_C4_roundtrip (now : String) (m : NaiveBayesModel) :
    NaiveBayesModel.load now (NaiveBayesModel.save m) = Except.ok m := by
  unfold NaiveBayesModel.load NaiveBayesModel.save
  simp only [ok_bind, lookupE, NaiveBayesModel.jObjFields, NaiveBayesModel.jMetaD,
    NaiveBayesModel.jStrD, dlookup_cons, dlookup_nil, getD, String.reduceEq,
    reduceIte, loadConfig_configJson, parseIntObj_roundtrip,
    parseNestedObj_roundtrip, parseStrList_roundtrip, Finset.sort_toFinset,
    Option.getD_some]
  rfl

/-! ## Claim C2: empty-model error behaviour

The code has no `EmptyModel` error.  On a model with zero labels,
`predict_proba`/`predict`/`explain` raise `ValueError` (Python's
`max() arg is an empty sequence`) and `top_tokens` raises `KeyError`
(`self.total_tokens[label]`). -/

/-- Counterexample to C2 as stated: on a zero-label model, `predict_proba`
does not fail with the spec's `EmptyModel` error — it raises a plain
`ValueError`. -/
theorem claim_C2_counterexample :
    NaiveBayesModel.predict_proba emptyModelEx "hello" ≠
        Except.error PyError.emptyModel ∧
      NaiveBayesModel.predict_proba emptyModelEx "hello" =
        Except.error PyError.valueError := by
  constructor
  · intro h
    have h' : Except.error PyError.valueError =
        (Except.error PyError.emptyModel : Except PyError (List (String × ℝ))) := h
    simp at h'
  · rfl

/-- Claim C2 (amended): on every model with zero labels (empty
`label_counts`, `token_counts`, `total_tokens`), the four operations do all
fail — but with Python's generic errors (`ValueError` from `max()` on an
empty sequence for `predict_proba`/`predict`/`explain`, `KeyError` for
`top_tokens`), not with an explicit `EmptyModel` error. -/
theorem claim_C2_amended (m : NaiveBayesModel)
    (h1 : m.label_counts = []) (h2 : m.token_counts = [])
    (h3 : m.total_tokens = []) (text : String) (n : Nat) (label : String) :
    m.predict_proba text = Except.error PyError.valueError ∧
    m.predict text = Except.error PyError.valueError ∧
    m.explain text n = Except.error PyError.valueError ∧
    m.top_tokens label n = Except.error (PyError.keyError label) := by
  obtain ⟨lc, tc, tt, voc, cfg, ta, ds⟩ := m
  simp only at h1 h2 h3
  subst h1; subst h2; subst h3
  exact ⟨rfl, rfl, rfl, rfl⟩

/-- Witness for the amended C2 at the concrete empty model. -/
theorem claim_C2_witness :
    NaiveBayesModel.predict_proba emptyModelEx "x" = Except.error PyError.valueError ∧
    NaiveBayesModel.predict emptyModelEx "x" = Except.error PyError.valueError ∧
    NaiveBayesModel.explain emptyModelEx "x" 3 = Except.error PyError.valueError ∧
    NaiveBayesModel.top_tokens emptyModelEx "spam" 3 =
      Except.error (PyError.keyError "spam") :=
  claim_C2_amended emptyModelEx rfl rfl rfl "x" 3 "spam"

/-! ## Claim C3: load error behaviour

The code has no `CorruptModel` error: missing keys raise `KeyError`,
non-parsable string counts raise `ValueError`, structurally wrong values
raise `TypeError`/`AttributeError` — and some malformed documents (boolean
counts) are silently coerced and load successfully. -/

theorem error_bind {α β : Type _} (e : PyError) (f : α → Except PyError β) :
    (Except.error e >>= f) = Except.error e := rfl

theorem pure_ne_err {α : Type _} (a : α) (E : PyError) :
    (pure a : Except PyError α) ≠ .error E := fun h => Except.noConfusion h

theorem ok_ne_err {α : Type _} (a : α) (E : PyError) :
    (Except.ok a : Except PyError α) ≠ .error E := fun h => Except.noConfusion h

theorem bind_ne_err {α β : Type _} (x : Except PyError α) (f : α → Except PyError β)
    (E : PyError) (hx : x ≠ .error E) (hf : ∀ a, f a ≠ .error E) :
    (x >>= f) ≠ .error E := by
  cases x with
  | error e =>
    rw [error_bind]
    intro h
    have he : e = E := by injection h
    exact hx (by rw [he])
  | ok a =>
    rw [ok_bind]
    exact hf a

theorem bind_ok_inv {α β : Type _} {x : Except PyError α} {f : α → Except PyError β}
    {b : β} (h : (x >>= f) = .ok b) : ∃ a, x = .ok a ∧ f a = .ok b := by
  cases x with
  | error e => rw [error_bind] at h; exact absurd h (by simp)
  | ok a => exact ⟨a, rfl, by rwa [ok_bind] at h⟩

theorem mapM_ne_err {α β : Type _} (f : α → Except PyError β) (E : PyError)
    (hf : ∀ a, f a ≠ .error E) (l : List α) : l.mapM f ≠ .error E := by
  induction l with
  | nil =>
    intro h
    rw [List.mapM_nil] at h
    exact pure_ne_err _ _ h
  | cons a as ih =>
    rw [List.mapM_cons]
    refine bind_ne_err _ _ _ (hf a) fun b => ?_
    refine bind_ne_err _ _ _ ih fun bs => ?_
    exact pure_ne_err _ _

theorem pyInt_ne_corrupt (v : JVal) : pyInt v ≠ .error .corruptModel := by
  cases v <;> simp [pyInt]
  case jstr s => cases parseIntStr s <;> simp

theorem parseIntObj_ne_corrupt (j : JVal) : parseIntObj j ≠ .error .corruptModel := by
  cases j <;> simp only [parseIntObj] <;> try simp
  case jobj kvs =>
    refine mapM_ne_err _ _ (fun p => ?_) kvs
    exact bind_ne_err _ _ _ (pyInt_ne_corrupt p.2) (fun n => by simp)

theorem jBoolD_ne_corrupt (o : Option JVal) (dflt : Bool) :
    jBoolD o dflt ≠ .error .corruptModel := by
  rcases o with _ | v
  · exact ok_ne_err _ _
  · cases v <;> simp [jBoolD]

theorem jNatD_ne_corrupt (o : Option JVal) (dflt : Nat) :
    jNatD o dflt ≠ .error .corruptModel := by
  rcases o with _ | v
  · exact ok_ne_err _ _
  · cases v <;> simp [jNatD]

theorem loadConfig_ne_corrupt (j : JVal) : loadConfig j ≠ .error .corruptModel := by
  cases j <;> simp only [loadConfig] <;> try exact ok_ne_err _ _
  all_goals try simp
  case jobj kvs =>
    split
    · simp
    · refine bind_ne_err _ _ _ (jBoolD_ne_corrupt _ _) fun ub => ?_
      refine bind_ne_err _ _ _ (jNatD_ne_corrupt _ _) fun ml => ?_
      refine bind_ne_err _ _ _ (jBoolD_ne_corrupt _ _) fun re => ?_
      refine bind_ne_err _ _ _ (jBoolD_ne_corrupt _ _) fun ru => ?_
      refine bind_ne_err _ _ _ (jBoolD_ne_corrupt _ _) fun rn => ?_
      exact pure_ne_err _ _

theorem lookupE_ne_corrupt {α : Type _} (l : List (String × α)) (k : String) :
    lookupE l k ≠ .error .corruptModel := by
  unfold lookupE
  cases dlookup l k <;> simp

theorem jObjFields_ne_corrupt (j : JVal) :
    NaiveBayesModel.jObjFields j ≠ .error .corruptModel := by
  cases j <;> simp [NaiveBayesModel.jObjFields]

theorem jMetaD_ne_corrupt (o : Option JVal) :
    NaiveBayesModel.jMetaD o ≠ .error .corruptModel := by
  rcases o with _ | v
  · exact ok_ne_err _ _
  · cases v <;> simp [NaiveBayesModel.jMetaD]

theorem parseNestedObj_ne_corrupt (j : JVal) :
    NaiveBayesModel.parseNestedObj j ≠ .error .corruptModel := by
  cases j <;> simp only [NaiveBayesModel.parseNestedObj] <;> try simp
  case jobj kvs =>
    refine mapM_ne_err _ _ (fun p => ?_) kvs
    exact bind_ne_err _ _ _ (parseIntObj_ne_corrupt p.2) fun x => pure_ne_err _ _

theorem parseStrList_ne_corrupt (j : JVal) :
    NaiveBayesModel.parseStrList j ≠ .error .corruptModel := by
  cases j <;> simp only [NaiveBayesModel.parseStrList] <;> try simp
  case jarr xs =>
    refine mapM_ne_err _ _ (fun x => ?_) xs
    cases x <;> simp

theorem jStrD_ne_corrupt (o : Option JVal) (dflt : String) :
    NaiveBayesModel.jStrD o dflt ≠ .error .corruptModel := by
  rcases o with _ | v
  · exact ok_ne_err _ _
  · cases v <;> simp [NaiveBayesModel.jStrD]

/-- `load` never produces the spec's `CorruptModel` error, whatever the
document. -/
theorem load_ne_corrupt (now : String) (payload : JVal) :
    NaiveBayesModel.load now payload ≠ .error .corruptModel := by
  unfold NaiveBayesModel.load
  refine bind_ne_err _ _ _ (jObjFields_ne_corrupt _) fun fields => ?_
  refine bind_ne_err _ _ _ (lookupE_ne_corrupt _ _) fun cfgJ => ?_
  refine bind_ne_err _ _ _ (loadConfig_ne_corrupt _) fun config => ?_
  refine bind_ne_err _ _ _ (jMetaD_ne_corrupt _) fun metadata => ?_
  refine bind_ne_err _ _ _ (lookupE_ne_corrupt _ _) fun lcJ => ?_
  refine bind_ne_err _ _ _ (parseIntObj_ne_corrupt _) fun lc => ?_
  refine bind_ne_err _ _ _ (lookupE_ne_corrupt _ _) fun tcJ => ?_
  refine bind_ne_err _ _ _ (parseNestedObj_ne_corrupt _) fun tc => ?_
  refine bind_ne_err _ _ _ (lookupE_ne_corrupt _ _) fun ttJ => ?_
  refine bind_ne_err _ _ _ (parseIntObj_ne_corrupt _) fun tt => ?_
  refine bind_ne_err _ _ _ (lookupE_ne_corrupt _ _) fun vocJ => ?_
  refine bind_ne_err _ _ _ (parseStrList_ne_corrupt _) fun voc => ?_
  refine bind_ne_err _ _ _ (jStrD_ne_corrupt _ _) fun ta => ?_
  refine bind_ne_err _ _ _ (pyInt_ne_corrupt _) fun ds => ?_
  exact pure_ne_err _ _

theorem lookupE_ok_mem {α : Type _} {l : List (String × α)} {k : String} {v : α}
    (h : lookupE l k = .ok v) : k ∈ keysOf l := by
  rw [← dlookup_isSome_iff]
  unfold lookupE at h
  rcases hdl : dlookup l k with _ | w
  · rw [hdl] at h
    exact absurd h (by simp)
  · rfl

/-- A successful `load` requires all five top-level keys to be present. -/
theorem load_ok_keys (now : String) (fields : List (String × JVal))
    (m : NaiveBayesModel)
    (h : NaiveBayesModel.load now (.jobj fields) = .ok m) :
    "config" ∈ keysOf fields ∧ "label_counts" ∈ keysOf fields ∧
    "token_counts" ∈ keysOf fields ∧ "total_tokens" ∈ keysOf fields ∧
    "vocabulary" ∈ keysOf fields := by
  unfold NaiveBayesModel.load at h
  rw [show NaiveBayesModel.jObjFields (.jobj fields) = Except.ok fields from rfl,
    ok_bind] at h
  obtain ⟨cfgJ, hcfg, h⟩ := bind_ok_inv h
  obtain ⟨config, _, h⟩ := bind_ok_inv h
  obtain ⟨metadata, _, h⟩ := bind_ok_inv h
  obtain ⟨lcJ, hlc, h⟩ := bind_ok_inv h
  obtain ⟨lc, _, h⟩ := bind_ok_inv h
  obtain ⟨tcJ, htc, h⟩ := bind_ok_inv h
  obtain ⟨tc, _, h⟩ := bind_ok_inv h
  obtain ⟨ttJ, htt, h⟩ := bind_ok_inv h
  obtain ⟨tt, _, h⟩ := bind_ok_inv h
  obtain ⟨vocJ, hvoc, h⟩ := bind_ok_inv h
  exact ⟨lookupE_ok_mem hcfg, lookupE_ok_mem hlc, lookupE_ok_mem htc,
    lookupE_ok_mem htt, lookupE_ok_mem hvoc⟩

/-- Claim C3 (amended): when any of the five required top-level keys is
absent, `load` does fail — but with a generic Python error (`KeyError` on
the missing key, or `TypeError`/`ValueError` from whatever it parses
first), never with the spec's `CorruptModel` error, which the code does not
define; and (see the counterexample) malformed non-numeric counts such as
booleans are silently coerced instead of rejected. -/
theorem claim_C3_amended (now : String) (fields : List (String × JVal))
    (hmiss : "config" ∉ keysOf fields ∨ "label_counts" ∉ keysOf fields ∨
      "token_counts" ∉ keysOf fields ∨ "total_tokens" ∉ keysOf fields ∨
      "vocabulary" ∉ keysOf fields) :
    ∃ e, NaiveBayesModel.load now (.jobj fields) = .error e ∧
      e ≠ PyError.corruptModel := by
  cases hload : NaiveBayesModel.load now (.jobj fields) with
  | ok m =>
    exfalso
    have hk := load_ok_keys now fields m hload
    rcases hmiss with h | h | h | h | h
    exacts [h hk.1, h hk.2.1, h hk.2.2.1, h hk.2.2.2.1, h hk.2.2.2.2]
  | error e =>
    refine ⟨e, rfl, ?_⟩
    intro he
    subst he
    exact load_ne_corrupt now _ hload

/-- Witness for the amended C3: a document missing every required key. -/
theorem claim_C3_witness :
    ∃ e, NaiveBayesModel.load "t" (.jobj []) = .error e ∧
      e ≠ PyError.corruptModel :=
  claim_C3_amended "t" [] (Or.inl (by simp))

/-- Counterexample to C3 as stated: the malformed document above does not
fail at all — `int(True)` silently coerces the boolean count to `1` and
`load` succeeds (so in particular it does not fail with `CorruptModel`). -/
theorem claim_C3_counterexample :
    NaiveBayesModel.load "t" corruptDocEx =
      Except.ok ⟨[("spam", 1)], [("spam", [("win", 2)])], [("spam", 2)],
        (["win"] : List String).toFinset,
        ⟨false, 2, false, false, false⟩, "t", 0⟩ := by
  rfl

/-! ## Happy-path evaluation of the inference operations -/

theorem mapM_ok_of_forall {α β : Type _} (l : List α) (f : α → Except PyError β)
    (g : α → β) (h : ∀ x ∈ l, f x = .ok (g x)) : l.mapM f = .ok (l.map g) := by
  induction l with
  | nil => rfl
  | cons a as ih =>
    rw [List.mapM_cons, h a (List.mem_cons_self a as),
      ih (fun x hx => h x (List.mem_cons_of_mem a hx))]
    rfl

theorem foldlM_ok_of_forall {α β : Type _} (l : List α) (F : β → α → Except PyError β)
    (G : β → α → β) (h : ∀ b a, a ∈ l → F b a = .ok (G b a)) :
    ∀ init, l.foldlM F init = .ok (l.foldl G init) := by
  induction l with
  | nil => intro init; rfl
  | cons a as ih =>
    intro init
    show F init a >>= _ = _
    rw [h init a (List.mem_cons_self a as), ok_bind,
      ih (fun b x hx => h b x (List.mem_cons_of_mem a hx)) (G init a)]
    rfl

theorem foldl_add_sum {α : Type _} (f : α → ℝ) (l : List α) (init : ℝ) :
    l.foldl (fun acc p => acc + f p) init = init + (l.map f).sum := by
  induction l generalizing init with
  | nil => simp
  | cons a as ih => simp [ih, add_assoc]

theorem sum_map_div {α : Type _} (l : List α) (f : α → ℝ) (c : ℝ) :
    (l.map fun x => f x / c).sum = (l.map f).sum / c := by
  induction l with
  | nil => simp
  | cons a as ih => simp [ih, add_div]

theorem dlookup_mem {α : Type _} {l : List (String × α)} {k : String} {v : α}
    (h : dlookup l k = some v) : (k, v) ∈ l := by
  induction l with
  | nil => simp at h
  | cons p l ih =>
    rw [dlookup_cons] at h
    by_cases hp : p.1 = k
    · subst hp
      rw [if_pos rfl] at h
      injection h with h
      subst h
      rw [Prod.mk.eta]
      exact List.mem_cons_self p l
    · rw [if_neg hp] at h
      exact List.mem_cons_of_mem _ (ih h)

theorem getD_zero_nonneg (l : List (String × Int)) (h : ∀ r ∈ l, 0 ≤ r.2)
    (k : String) : 0 ≤ getD l k 0 := by
  unfold getD
  cases hdl : dlookup l k with
  | none => simp
  | some w => simpa using h _ (dlookup_mem hdl)

namespace NaiveBayesModel

theorem totalDocs_pos (m : NaiveBayesModel) (hWF : Wellformed m)
    (hne : m.label_counts ≠ []) : 0 < m.totalDocs := by
  unfold totalDocs sumVals
  apply List.sum_pos
  · intro x hx
    obtain ⟨p, hp, rfl⟩ := List.mem_map.mp hx
    exact lt_of_lt_of_le zero_lt_one (hWF.2.1 p hp)
  · simpa using hne

theorem vocabSize_pos (m : NaiveBayesModel) : 0 < m.vocabSize :=
  lt_of_lt_of_le zero_lt_one (le_max_right _ _)

theorem labelScoreE_ok (m : NaiveBayesModel) (hWF : Wellformed m)
    (feats : List (String × Int)) (label : String)
    (hmem : label ∈ keysOf m.label_counts) :
    m.labelScoreE feats label = .ok (m.labelScore feats label) := by
  obtain ⟨hnd, hcnt, hmaps, httn, htcn⟩ := hWF
  have hsome : (dlookup m.label_counts label).isSome :=
    (dlookup_isSome_iff _ _).mpr hmem
  obtain ⟨cnt, hcnt_eq⟩ := Option.isSome_iff_exists.mp hsome
  have hcnt1 : 1 ≤ cnt := hcnt _ (dlookup_mem hcnt_eq)
  have hne : m.label_counts ≠ [] := by
    intro hnil
    rw [hnil] at hmem
    simp at hmem
  have htd : 0 < m.totalDocs :=
    totalDocs_pos m ⟨hnd, hcnt, hmaps, httn, htcn⟩ hne
  obtain ⟨httS, htcS⟩ := hmaps _ (dlookup_mem hcnt_eq)
  obtain ⟨lt, hlt⟩ := Option.isSome_iff_exists.mp httS
  obtain ⟨bucket, hbk⟩ := Option.isSome_iff_exists.mp htcS
  have hlt0 : 0 ≤ lt := httn _ (dlookup_mem hlt)
  have hden : 0 < lt + m.vocabSize := by
    have := vocabSize_pos m
    omega
  have hgetD : getD m.label_counts label 0 = cnt := by rw [getD, hcnt_eq]; rfl
  have h1 : logRatioE (getD m.label_counts label 0) m.totalDocs =
      .ok (Real.log (((getD m.label_counts label 0 : Int) : ℝ) / (m.totalDocs : ℝ))) := by
    unfold logRatioE
    rw [if_neg (by omega : ¬ m.totalDocs = 0),
      if_neg (not_le.mpr (mul_pos (by omega : (0 : Int) < getD m.label_counts label 0) htd))]
  have h2 : lookupE m.total_tokens label = Except.ok lt := by
    unfold lookupE
    rw [hlt]
  have h3 : lookupE m.token_counts label = Except.ok bucket := by
    unfold lookupE
    rw [hbk]
  unfold labelScoreE
  rw [h1, ok_bind, h2, ok_bind, h3, ok_bind]
  rw [foldlM_ok_of_forall feats _
    (fun acc p => acc + (p.2 : ℝ) *
      Real.log (((getD bucket p.1 0 + 1 : Int) : ℝ) / ((lt + m.vocabSize : Int) : ℝ)))
    ?_]
  · rw [foldl_add_sum]
    unfold labelScore likScore
    have hbg : getD m.token_counts label [] = bucket := by rw [getD, hbk]; rfl
    have hlg : getD m.total_tokens label 0 = lt := by rw [getD, hlt]; rfl
    rw [hbg, hlg]
  · intro b p _
    have htok0 : 0 ≤ getD bucket p.1 0 :=
      getD_zero_nonneg bucket (htcn _ (dlookup_mem hbk)) p.1
    have hterm : logRatioE (getD bucket p.1 0 + 1) (lt + m.vocabSize) =
        .ok (Real.log (((getD bucket p.1 0 + 1 : Int) : ℝ) / ((lt + m.vocabSize : Int) : ℝ))) := by
      unfold logRatioE
      rw [if_neg (by omega : ¬ lt + m.vocabSize = 0),
        if_neg (not_le.mpr (mul_pos (by omega : (0 : Int) < getD bucket p.1 0 + 1) hden))]
    show logRatioE (getD bucket p.1 0 + 1) (lt + m.vocabSize) >>= _ = _
    rw [hterm, ok_bind]
    rfl

theorem labels_mem_keys {m : NaiveBayesModel} {label : String}
    (h : label ∈ m.labels) : label ∈ keysOf m.label_counts :=
  (List.perm_insertionSort (α := String) (· ≤ ·) _).mem_iff.mp h

theorem predict_proba_ok (m : NaiveBayesModel) (hWF : Wellformed m)
    (hne : m.labels ≠ []) (text : String) :
    m.predict_proba text =
      .ok (softmax (m.scoreList (counterOf (tokenize text m.config)))) := by
  have hmapM : m.labels.mapM
      (fun label => do
        pure (label, ← m.labelScoreE (counterOf (tokenize text m.config)) label)) =
      .ok (m.scoreList (counterOf (tokenize text m.config))) := by
    unfold scoreList
    apply mapM_ok_of_forall
    intro label hlabel
    show m.labelScoreE (counterOf (tokenize text m.config)) label >>= _ = _
    rw [labelScoreE_ok m hWF _ label (labels_mem_keys hlabel), ok_bind]
    rfl
  unfold predict_proba
  rw [hmapM, ok_bind]
  cases hl : m.labels with
  | nil => exact absurd hl hne
  | cons a as =>
    unfold scoreList
    rw [hl, List.map_cons]
    rfl

theorem softmax_eq (ps : List (String × ℝ)) :
    softmax ps = ps.map fun q =>
      (q.1, Real.exp q.2 / (ps.map fun r => Real.exp r.2).sum) := by
  cases ps with
  | nil => rfl
  | cons s ss =>
    simp only [softmax, List.map_map]
    set mx := (ss.map Prod.snd).foldl max s.2 with hmxdef
    have hmx : ∀ q : String × ℝ, Real.exp (q.2 - mx) =
        Real.exp q.2 / Real.exp mx := fun q => Real.exp_sub q.2 mx
    have htotal : ((s :: ss).map
          (Prod.snd ∘ fun q : String × ℝ => (q.1, Real.exp (q.2 - mx)))).sum =
        ((s :: ss).map fun r => Real.exp r.2).sum / Real.exp mx := by
      rw [show ((s :: ss).map (Prod.snd ∘ fun q : String × ℝ => (q.1, Real.exp (q.2 - mx)))) =
          ((s :: ss).map fun q => Real.exp q.2 / Real.exp mx) from
        List.map_congr_left (fun q _ => hmx q)]
      exact sum_map_div _ _ _
    rw [htotal]
    refine List.map_congr_left fun q _ => ?_
    simp only [Function.comp]
    congr 1
    rw [hmx q, div_div_div_cancel_right₀ (Real.exp_ne_zero mx)]

theorem scoreList_ne_nil (m : NaiveBayesModel) (feats : List (String × Int))
    (hne : m.labels ≠ []) : m.scoreList feats ≠ [] := by
  unfold scoreList
  simpa using hne

/-- Claim C5: on every well-formed model with at least one label,
`predict_proba` succeeds, its values sum to 1 within `1e-6`, and every value
lies in `[0, 1]`; the normalization is the log-sum-exp computation embedded
in `predict_proba`/`softmax`. -/
theorem claim_C5_probability_normalization (m : NaiveBayesModel)
    (hWF : Wellformed m) (hne : m.labels ≠ []) (text : String) :
    ∃ ps, m.predict_proba text = .ok ps ∧
      |(ps.map Prod.snd).sum - 1| ≤ 1 / 1000000 ∧
      ∀ q ∈ ps, 0 ≤ q.2 ∧ q.2 ≤ 1 := by
  have hok := predict_proba_ok m hWF hne text
  set sl := m.scoreList (counterOf (tokenize text m.config)) with hsl
  have hslne : sl ≠ [] := scoreList_ne_nil m _ hne
  have hSpos : 0 < (sl.map fun r => Real.exp r.2).sum := by
    apply List.sum_pos
    · intro x hx
      obtain ⟨r, _, rfl⟩ := List.mem_map.mp hx
      exact Real.exp_pos _
    · simpa using hslne
  refine ⟨softmax sl, hok, ?_, ?_⟩
  · rw [softmax_eq, List.map_map]
    rw [show (sl.map (Prod.snd ∘ fun q : String × ℝ =>
        (q.1, Real.exp q.2 / (sl.map fun r => Real.exp r.2).sum))) =
        (sl.map fun q => Real.exp q.2 / (sl.map fun r => Real.exp r.2).sum) from
      List.map_congr_left (fun q _ => rfl)]
    rw [sum_map_div, div_self (ne_of_gt hSpos)]
    norm_num
  · intro q hq
    rw [softmax_eq] at hq
    obtain ⟨r, hr, rfl⟩ := List.mem_map.mp hq
    constructor
    · exact div_nonneg (Real.exp_pos _).le hSpos.le
    · rw [div_le_one hSpos]
      exact List.single_le_sum
        (fun x hx => by
          obtain ⟨w, _, rfl⟩ := List.mem_map.mp hx
          exact (Real.exp_pos _).le) _
        (List.mem_map.mpr ⟨r, hr, rfl⟩)

/-- The precise behaviour of Python's `max(..., key=...)` over a nonempty
association list: the result splits the list into a strict-smaller part
before it and a no-larger part after it. -/
theorem argmaxFirst_decomp (p : String × ℝ) (ps : List (String × ℝ)) :
    ∃ l₁ l₂, p :: ps = l₁ ++ argmaxFirst p ps :: l₂ ∧
      (∀ q ∈ l₁, q.2 < (argmaxFirst p ps).2) ∧
      (∀ q ∈ l₂, q.2 ≤ (argmaxFirst p ps).2) := by
  induction ps generalizing p with
  | nil => exact ⟨[], [], rfl, by simp, by simp⟩
  | cons q qs ih =>
    have hstep : argmaxFirst p (q :: qs) = argmaxFirst (if p.2 < q.2 then q else p) qs :=
      rfl
    by_cases hpq : p.2 < q.2
    · obtain ⟨l₁, l₂, hdec, hlt, hle⟩ := ih q
      have hq_le : q.2 ≤ (argmaxFirst q qs).2 := by
        cases l₁ with
        | nil =>
          have : q = argmaxFirst q qs := by
            have := hdec
            simp only [List.nil_append] at this
            exact (List.cons.injEq _ _ _ _ ▸ this).1
          rw [← this]
        | cons a l₁' =>
          have hqa : q = a := by
            have := hdec
            simp only [List.cons_append] at this
            exact (List.cons.injEq _ _ _ _ ▸ this).1
          exact le_of_lt (hqa ▸ hlt a (List.mem_cons_self a l₁'))
      rw [hstep, if_pos hpq]
      refine ⟨p :: l₁, l₂, ?_, ?_, hle⟩
      · rw [List.cons_append, ← hdec]
      · intro x hx
        rcases List.mem_cons.mp hx with rfl | hx
        · exact lt_of_lt_of_le hpq hq_le
        · exact hlt x hx
    · obtain ⟨l₁, l₂, hdec, hlt, hle⟩ := ih p
      rw [hstep, if_neg hpq]
      cases l₁ with
      | nil =>
        simp only [List.nil_append] at hdec
        have hpr : p = argmaxFirst p qs := (List.cons.injEq _ _ _ _ ▸ hdec).1
        have hqs : qs = l₂ := (List.cons.injEq _ _ _ _ ▸ hdec).2
        refine ⟨[], q :: qs, by rw [List.nil_append, ← hpr], by simp, ?_⟩
        intro x hx
        rcases List.mem_cons.mp hx with rfl | hx
        · rw [← hpr]
          exact not_lt.mp hpq
        · exact hle x (hqs ▸ hx)
      | cons a l₁' =>
        simp only [List.cons_append] at hdec
        have hpa : p = a := (List.cons.injEq _ _ _ _ ▸ hdec).1
        have hqs : qs = l₁' ++ argmaxFirst p qs :: l₂ := (List.cons.injEq _ _ _ _ ▸ hdec).2
        have hplt : p.2 < (argmaxFirst p qs).2 := hpa ▸ hlt a (List.mem_cons_self a l₁')
        refine ⟨p :: q :: l₁', l₂, ?_, ?_, hle⟩
        · rw [List.cons_append, List.cons_append, ← hqs]
        · intro x hx
          rcases List.mem_cons.mp hx with rfl | hx
          · exact hplt
          rcases List.mem_cons.mp hx with rfl | hx
          · exact lt_of_le_of_lt (not_lt.mp hpq) hplt
          · exact hlt x (hpa ▸ List.mem_cons_of_mem a hx)

theorem softmax_keys (ps : List (String × ℝ)) :
    (softmax ps).map Prod.fst = ps.map Prod.fst := by
  rw [softmax_eq, List.map_map]
  rfl

theorem scoreList_keys (m : NaiveBayesModel) (feats : List (String × Int)) :
    (m.scoreList feats).map Prod.fst = m.labels := by
  simp only [scoreList, List.map_map]
  have h : (Prod.fst ∘ fun label => (label, m.labelScore feats label)) =
      fun l : String => l := rfl
  rw [h, List.map_id']

theorem predict_ok (m : NaiveBayesModel) (hWF : Wellformed m)
    (hne : m.labels ≠ []) (text : String) :
    ∃ s ss, softmax (m.scoreList (counterOf (tokenize text m.config))) = s :: ss ∧
      m.predict text = .ok (argmaxFirst s ss).1 := by
  have hok := predict_proba_ok m hWF hne text
  cases hsm : softmax (m.scoreList (counterOf (tokenize text m.config))) with
  | nil =>
    exfalso
    rw [softmax_eq] at hsm
    have := scoreList_ne_nil m (counterOf (tokenize text m.config)) hne
    simp at hsm
    exact this hsm
  | cons s ss =>
    refine ⟨s, ss, rfl, ?_⟩
    unfold predict
    rw [hok, ok_bind, hsm]
    rfl

/-- Claim C7: `predict` succeeds on every well-formed model with at least
one label and returns a label attaining the maximal `predict_proba` value;
the returned entry splits the probability list (whose key order is the
sorted label order) into strictly-smaller entries before it and no-larger
entries after it — i.e. ties go to the first label in sorted order. -/
theorem claim_C7_predict_argmax (m : NaiveBayesModel) (hWF : Wellformed m)
    (hne : m.labels ≠ []) (text : String) :
    ∃ ps lab v l₁ l₂,
      m.predict_proba text = .ok ps ∧
      m.predict text = .ok lab ∧
      ps.map Prod.fst = m.labels ∧
      List.Sorted (· ≤ ·) m.labels ∧
      ps = l₁ ++ (lab, v) :: l₂ ∧
      (∀ q ∈ l₁, q.2 < v) ∧
      (∀ q ∈ ps, q.2 ≤ v) := by
  obtain ⟨s, ss, hsm, hpred⟩ := predict_ok m hWF hne text
  obtain ⟨l₁, l₂, hdec, hlt, hle⟩ := argmaxFirst_decomp s ss
  have hok := predict_proba_ok m hWF hne text
  refine ⟨s :: ss, (argmaxFirst s ss).1, (argmaxFirst s ss).2, l₁, l₂,
    by rw [hok, hsm], hpred, ?_, ?_, by rw [Prod.mk.eta]; exact hdec, hlt, ?_⟩
  · rw [← hsm, softmax_keys, scoreList_keys]
  · exact List.sorted_insertionSort _ _
  · intro x hx
    rw [hdec] at hx
    rcases List.mem_append.mp hx with hx | hx
    · exact le_of_lt (hlt x hx)
    rcases List.mem_cons.mp hx with rfl | hx
    · exact le_refl _
    · exact hle x hx

/-- `wfModelEx.labels`, evaluated (the kernel cannot reduce Mathlib's
`String.decidableLE` directly, so the comparison goes through `toList`). -/
theorem wfModelEx_labels : wfModelEx.labels = ["ham", "spam"] := by
  show List.insertionSort (· ≤ ·) ["ham", "spam"] = ["ham", "spam"]
  simp only [List.insertionSort, List.orderedInsert, String.le_iff_toList_le,
    if_pos (by decide : ("ham".toList : List Char) ≤ "spam".toList)]

theorem wfModelEx_labels_ne : wfModelEx.labels ≠ [] := by
  rw [wfModelEx_labels]
  simp

/-- Witness for C5 at a concrete well-formed model. -/
theorem claim_C5_witness :
    Wellformed wfModelEx ∧ wfModelEx.labels ≠ [] ∧
    ∃ ps, wfModelEx.predict_proba "hello" = .ok ps ∧
      |(ps.map Prod.snd).sum - 1| ≤ 1 / 1000000 ∧
      ∀ q ∈ ps, 0 ≤ q.2 ∧ q.2 ≤ 1 :=
  ⟨by decide, wfModelEx_labels_ne,
    claim_C5_probability_normalization wfModelEx (by decide) wfModelEx_labels_ne "hello"⟩

/-- Witness for C7 at a concrete well-formed model. -/
theorem claim_C7_witness :
    Wellformed wfModelEx ∧ wfModelEx.labels ≠ [] ∧
    ∃ ps lab v l₁ l₂,
      wfModelEx.predict_proba "free reward" = .ok ps ∧
      wfModelEx.predict "free reward" = .ok lab ∧
      ps.map Prod.fst = wfModelEx.labels ∧
      List.Sorted (· ≤ ·) wfModelEx.labels ∧
      ps = l₁ ++ (lab, v) :: l₂ ∧
      (∀ q ∈ l₁, q.2 < v) ∧
      (∀ q ∈ ps, q.2 ≤ v) :=
  ⟨by decide, wfModelEx_labels_ne,
    claim_C7_predict_argmax wfModelEx (by decide) wfModelEx_labels_ne "free reward"⟩

/-! ## Claim C10: empty tokenization yields the normalized priors -/

theorem sum_getD_keys (l : List (String × Int)) (hnd : (keysOf l).Nodup) :
    ((keysOf l).map fun k => getD l k 0).sum = sumVals l := by
  induction l with
  | nil => rfl
  | cons p l ih =>
    have hnotin : p.1 ∉ keysOf l := (List.nodup_cons.mp hnd).1
    have hnd' : (keysOf l).Nodup := (List.nodup_cons.mp hnd).2
    have h1 : getD (p :: l) p.1 0 = p.2 := by
      rw [getD, dlookup_cons, if_pos rfl]
      rfl
    have h2 : (keysOf l).map (fun k => getD (p :: l) k 0) =
        (keysOf l).map (fun k => getD l k 0) := by
      refine List.map_congr_left fun k hk => ?_
      have hne : ¬ p.1 = k := fun h => hnotin (h ▸ hk)
      rw [getD, dlookup_cons, if_neg hne]
      rfl
    simp only [keysOf_cons, List.map_cons, List.sum_cons, h1, h2, ih hnd']
    show p.2 + sumVals l = sumVals (p :: l)
    unfold sumVals
    simp

theorem sum_priors_eq_totalDocs (m : NaiveBayesModel)
    (hnd : (keysOf m.label_counts).Nodup) :
    (m.labels.map fun l => getD m.label_counts l 0).sum = m.totalDocs := by
  have hperm : m.labels.Perm (keysOf m.label_counts) :=
    List.perm_insertionSort _ _
  rw [(hperm.map (fun k => getD m.label_counts k 0)).sum_eq,
    sum_getD_keys _ hnd]
  rfl

/-- Claim C10: on a well-formed model with at least one label, a text whose
tokenization is empty makes `predict_proba` return exactly the normalized
label priors `label_counts[l] / total_documents`, and `predict` return the
first label (in the sorted order) with the highest prior. -/
theorem claim_C10_empty_tokenization_priors (m : NaiveBayesModel)
    (hWF : Wellformed m) (hne : m.labels ≠ []) (text : String)
    (htok : tokenize text m.config = []) :
    ∃ lab v l₁ l₂,
      m.predict_proba text = .ok (m.labels.map fun l =>
        (l, ((getD m.label_counts l 0 : Int) : ℝ) / (m.totalDocs : ℝ))) ∧
      m.predict text = .ok lab ∧
      (m.labels.map fun l =>
        (l, ((getD m.label_counts l 0 : Int) : ℝ) / (m.totalDocs : ℝ))) =
        l₁ ++ (lab, v) :: l₂ ∧
      (∀ q ∈ l₁, q.2 < v) ∧
      (∀ q ∈ m.labels.map fun l =>
        (l, ((getD m.label_counts l 0 : Int) : ℝ) / (m.totalDocs : ℝ)), q.2 ≤ v) := by
  have hfeats : counterOf (tokenize text m.config) = [] := by
    rw [htok]
    rfl
  have hlblne : m.label_counts ≠ [] := by
    intro hnil
    apply hne
    unfold labels
    rw [hnil]
    rfl
  have htd : 0 < m.totalDocs := totalDocs_pos m hWF hlblne
  have hxpos : ∀ l ∈ m.labels, 0 < ((getD m.label_counts l 0 : Int) : ℝ) / (m.totalDocs : ℝ) := by
    intro l hl
    have hmem := labels_mem_keys hl
    obtain ⟨cnt, hcnt_eq⟩ := Option.isSome_iff_exists.mp ((dlookup_isSome_iff _ _).mpr hmem)
    have h1 : 1 ≤ cnt := hWF.2.1 _ (dlookup_mem hcnt_eq)
    have hg : getD m.label_counts l 0 = cnt := by
      rw [getD, hcnt_eq]
      rfl
    apply div_pos
    · rw [hg]
      exact_mod_cast lt_of_lt_of_le zero_lt_one h1
    · exact_mod_cast htd
  have hscore : ∀ l, m.labelScore [] l =
      Real.log (((getD m.label_counts l 0 : Int) : ℝ) / (m.totalDocs : ℝ)) := by
    intro l
    unfold labelScore likScore
    simp
  have hsl : m.scoreList [] = m.labels.map fun l =>
      (l, Real.log (((getD m.label_counts l 0 : Int) : ℝ) / (m.totalDocs : ℝ))) := by
    unfold scoreList
    exact List.map_congr_left fun l _ => by rw [hscore l]
  have hsum1 : ((m.scoreList []).map fun r => Real.exp r.2).sum = 1 := by
    rw [hsl, List.map_map]
    have hcongr : (m.labels.map ((fun r : String × ℝ => Real.exp r.2) ∘ fun l =>
        (l, Real.log (((getD m.label_counts l 0 : Int) : ℝ) / (m.totalDocs : ℝ))))) =
        (m.labels.map fun l => ((getD m.label_counts l 0 : Int) : ℝ) / (m.totalDocs : ℝ)) := by
      refine List.map_congr_left fun l hl => ?_
      simp only [Function.comp]
      exact Real.exp_log (hxpos l hl)
    rw [hcongr]
    have hsplit : (m.labels.map fun l =>
        ((getD m.label_counts l 0 : Int) : ℝ) / (m.totalDocs : ℝ)) =
        ((m.labels.map fun l => ((getD m.label_counts l 0 : Int) : ℝ)).map
          fun x => x / (m.totalDocs : ℝ)) := by
      rw [List.map_map]
      rfl
    have hcast2 : (m.labels.map fun l => ((getD m.label_counts l 0 : Int) : ℝ)).sum =
        (((m.labels.map fun l => getD m.label_counts l 0).sum : Int) : ℝ) := by
      rw [Int.cast_list_sum, List.map_map]
      rfl
    rw [hsplit, sum_map_div, List.map_id', hcast2, sum_priors_eq_totalDocs m hWF.1]
    exact div_self (by exact_mod_cast ne_of_gt htd)
  have hsoftmax : softmax (m.scoreList []) = m.labels.map fun l =>
      (l, ((getD m.label_counts l 0 : Int) : ℝ) / (m.totalDocs : ℝ)) := by
    rw [softmax_eq, hsum1, hsl, List.map_map]
    refine List.map_congr_left fun l hl => ?_
    simp only [Function.comp]
    rw [Real.exp_log (hxpos l hl), div_one]
  have hok := predict_proba_ok m hWF hne text
  rw [hfeats, hsoftmax] at hok
  obtain ⟨s, ss, hsm, hpred⟩ := predict_ok m hWF hne text
  rw [hfeats, hsoftmax] at hsm
  obtain ⟨l₁, l₂, hdec, hlt, hle⟩ := argmaxFirst_decomp s ss
  refine ⟨(argmaxFirst s ss).1, (argmaxFirst s ss).2, l₁, l₂, hok, hpred, ?_, hlt, ?_⟩
  · rw [Prod.mk.eta, hsm]
    exact hdec
  · intro x hx
    rw [hsm, hdec] at hx
    rcases List.mem_append.mp hx with hx | hx
    · exact le_of_lt (hlt x hx)
    rcases List.mem_cons.mp hx with rfl | hx
    · exact le_refl _
    · exact hle x hx

/-- Witness for C10: a text whose only token is shorter than
`min_token_length`. -/
theorem claim_C10_witness :
    Wellformed wfModelEx ∧ wfModelEx.labels ≠ [] ∧
    tokenize "a" wfModelEx.config = [] ∧
    (∃ lab v l₁ l₂,
      wfModelEx.predict_proba "a" = .ok (wfModelEx.labels.map fun l =>
        (l, ((getD wfModelEx.label_counts l 0 : Int) : ℝ) / (wfModelEx.totalDocs : ℝ))) ∧
      wfModelEx.predict "a" = .ok lab ∧
      (wfModelEx.labels.map fun l =>
        (l, ((getD wfModelEx.label_counts l 0 : Int) : ℝ) / (wfModelEx.totalDocs : ℝ))) =
        l₁ ++ (lab, v) :: l₂ ∧
      (∀ q ∈ l₁, q.2 < v) ∧
      (∀ q ∈ wfModelEx.labels.map fun l =>
        (l, ((getD wfModelEx.label_counts l 0 : Int) : ℝ) / (wfModelEx.totalDocs : ℝ)),
        q.2 ≤ v)) :=
  ⟨by decide, wfModelEx_labels_ne, by decide,
    claim_C10_empty_tokenization_priors wfModelEx (by decide) wfModelEx_labels_ne "a"
      (by decide)⟩

/-! ## Claim C1: explain's prediction versus predict -/

theorem foldl_pair {α β : Type _} (l : List α) (f : α → ℝ) (g : α → β) :
    ∀ init : ℝ × List β,
      l.foldl (fun acc p => (acc.1 + f p, acc.2 ++ [g p])) init =
        (init.1 + (l.map f).sum, init.2 ++ l.map g) := by
  induction l with
  | nil => intro init; simp
  | cons a as ih =>
    intro init
    rw [List.foldl_cons, ih]
    simp [add_assoc]

theorem explainLabelE_ok (m : NaiveBayesModel) (hWF : Wellformed m)
    (feats : List (String × Int)) (label : String)
    (hmem : label ∈ keysOf m.label_counts) :
    m.explainLabelE feats label = .ok (m.likScore feats label,
      feats.map fun p => (p.1, (p.2 : ℝ) *
        Real.log (((getD (getD m.token_counts label []) p.1 0 + 1 : Int) : ℝ) /
          ((getD m.total_tokens label 0 + m.vocabSize : Int) : ℝ)))) := by
  obtain ⟨hnd, hcnt, hmaps, httn, htcn⟩ := hWF
  have hsome : (dlookup m.label_counts label).isSome :=
    (dlookup_isSome_iff _ _).mpr hmem
  obtain ⟨cnt, hcnt_eq⟩ := Option.isSome_iff_exists.mp hsome
  obtain ⟨httS, htcS⟩ := hmaps _ (dlookup_mem hcnt_eq)
  obtain ⟨lt, hlt⟩ := Option.isSome_iff_exists.mp httS
  obtain ⟨bucket, hbk⟩ := Option.isSome_iff_exists.mp htcS
  have hlt0 : 0 ≤ lt := httn _ (dlookup_mem hlt)
  have hden : 0 < lt + m.vocabSize := by
    have := vocabSize_pos m
    omega
  have h2 : lookupE m.total_tokens label = Except.ok lt := by
    unfold lookupE
    rw [hlt]
  have h3 : lookupE m.token_counts label = Except.ok bucket := by
    unfold lookupE
    rw [hbk]
  have hbg : getD m.token_counts label [] = bucket := by rw [getD, hbk]; rfl
  have hlg : getD m.total_tokens label 0 = lt := by rw [getD, hlt]; rfl
  unfold explainLabelE
  rw [foldlM_ok_of_forall feats _
    (fun acc p => (acc.1 + (p.2 : ℝ) *
        Real.log (((getD bucket p.1 0 + 1 : Int) : ℝ) / ((lt + m.vocabSize : Int) : ℝ)),
      acc.2 ++ [(p.1, (p.2 : ℝ) *
        Real.log (((getD bucket p.1 0 + 1 : Int) : ℝ) / ((lt + m.vocabSize : Int) : ℝ)))]))
    ?_]
  · rw [foldl_pair]
    unfold likScore
    rw [hbg, hlg]
    simp
  · intro b p _
    have htok0 : 0 ≤ getD bucket p.1 0 :=
      getD_zero_nonneg bucket (htcn _ (dlookup_mem hbk)) p.1
    have hterm : logRatioE (getD bucket p.1 0 + 1) (lt + m.vocabSize) =
        .ok (Real.log (((getD bucket p.1 0 + 1 : Int) : ℝ) /
          ((lt + m.vocabSize : Int) : ℝ))) := by
      unfold logRatioE
      rw [if_neg (by omega : ¬ lt + m.vocabSize = 0),
        if_neg (not_le.mpr (mul_pos (by omega : (0 : Int) < getD bucket p.1 0 + 1) hden))]
    show lookupE m.token_counts label >>= _ = _
    rw [h3, ok_bind, h2, ok_bind, hterm, ok_bind]
    rfl

theorem explain_ok (m : NaiveBayesModel) (hWF : Wellformed m)
    (hne : m.labels ≠ []) (text : String) (n : Nat) :
    ∃ s ss e, m.likList (counterOf (tokenize text m.config)) = s :: ss ∧
      m.explain text n = .ok e ∧
      e.prediction = (argmaxFirst s ss).1 ∧
      e.probabilities = softmax (m.scoreList (counterOf (tokenize text m.config))) := by
  have hmapM : m.labels.mapM
      (fun label => do
        pure (label, ← m.explainLabelE (counterOf (tokenize text m.config)) label)) =
      .ok (m.labels.map fun l =>
        (l, (m.likScore (counterOf (tokenize text m.config)) l,
          (counterOf (tokenize text m.config)).map fun p => (p.1, (p.2 : ℝ) *
            Real.log (((getD (getD m.token_counts l []) p.1 0 + 1 : Int) : ℝ) /
              ((getD m.total_tokens l 0 + m.vocabSize : Int) : ℝ)))))) := by
    apply mapM_ok_of_forall
    intro label hlabel
    show m.explainLabelE (counterOf (tokenize text m.config)) label >>= _ = _
    rw [explainLabelE_ok m hWF _ label (labels_mem_keys hlabel), ok_bind]
    rfl
  cases hl : m.labels with
  | nil => exact absurd hl hne
  | cons a as =>
    unfold explain
    rw [hmapM, ok_bind, hl, List.map_cons,
      predict_proba_ok m hWF hne text]
    refine ⟨(a, m.likScore (counterOf (tokenize text m.config)) a),
      as.map fun l => (l, m.likScore (counterOf (tokenize text m.config)) l),
      _, ?_, rfl, ?_, rfl⟩
    · unfold likList
      rw [hl, List.map_cons]
    · show (argmaxFirst (a, m.likScore (counterOf (tokenize text m.config)) a)
        ((as.map fun l =>
          (l, m.likScore (counterOf (tokenize text m.config)) l,
            (counterOf (tokenize text m.config)).map fun p => (p.1, (p.2 : ℝ) *
              Real.log (((getD (getD m.token_counts l []) p.1 0 + 1 : Int) : ℝ) /
                ((getD m.total_tokens l 0 + m.vocabSize : Int) : ℝ))))).map
          fun q => (q.1, q.2.1))).1 = _
      rw [List.map_map]
      rfl

/-- `argmaxFirst` commutes with a strictly monotone transformation of the
values (keys untouched). -/
theorem argmaxFirst_map (ψ : ℝ → ℝ) (hψ : StrictMono ψ)
    (p : String × ℝ) (ps : List (String × ℝ)) :
    argmaxFirst (p.1, ψ p.2) (ps.map fun q => (q.1, ψ q.2)) =
      ((argmaxFirst p ps).1, ψ (argmaxFirst p ps).2) := by
  induction ps generalizing p with
  | nil => rfl
  | cons q qs ih =>
    rw [List.map_cons]
    show argmaxFirst (if ψ p.2 < ψ q.2 then (q.1, ψ q.2) else (p.1, ψ p.2))
        (qs.map fun r => (r.1, ψ r.2)) =
      ((argmaxFirst (if p.2 < q.2 then q else p) qs).1,
        ψ (argmaxFirst (if p.2 < q.2 then q else p) qs).2)
    by_cases hpq : p.2 < q.2
    · rw [if_pos (hψ hpq), if_pos hpq]
      exact ih q
    · rw [if_neg (fun hlt => hpq (hψ.lt_iff_lt.mp hlt)), if_neg hpq]
      exact ih p

/-- Claim C1 (amended): `explain`'s `prediction` maximises the
likelihood-only scores (no prior).  When all label priors are equal — all
`label_counts` values coincide — it agrees with `predict`; the
counterexample shows it differs under uneven priors. -/
theorem claim_C1_amended (m : NaiveBayesModel) (hWF : Wellformed m)
    (hne : m.labels ≠ []) (k : Int)
    (hbal : ∀ p ∈ m.label_counts, p.2 = k) (text : String) (n : Nat) :
    ∃ e lab, m.explain text n = .ok e ∧ m.predict text = .ok lab ∧
      e.prediction = lab := by
  obtain ⟨s, ss, e, hlik, hexp, hepred, _⟩ := explain_ok m hWF hne text n
  obtain ⟨s', ss', hsm, hpred⟩ := predict_ok m hWF hne text
  set feats := counterOf (tokenize text m.config) with hfeats
  set S := ((m.scoreList feats).map fun r => Real.exp r.2).sum with hSdef
  have hSpos : 0 < S := by
    apply List.sum_pos
    · intro x hx
      obtain ⟨r, _, rfl⟩ := List.mem_map.mp hx
      exact Real.exp_pos _
    · simpa using scoreList_ne_nil m feats hne
  set c := Real.log (((k : Int) : ℝ) / (m.totalDocs : ℝ)) with hcdef
  have hshift : m.scoreList feats = (m.likList feats).map fun q => (q.1, c + q.2) := by
    unfold scoreList likList
    rw [List.map_map]
    refine List.map_congr_left fun l hl => ?_
    simp only [Function.comp]
    unfold labelScore
    have hmem := labels_mem_keys hl
    obtain ⟨cnt, hcnt_eq⟩ := Option.isSome_iff_exists.mp
      ((dlookup_isSome_iff _ _).mpr hmem)
    have hk : getD m.label_counts l 0 = k := by
      rw [getD, hcnt_eq]
      exact hbal _ (dlookup_mem hcnt_eq)
    rw [hk]
  have hψ : StrictMono fun v : ℝ => Real.exp (c + v) / S := fun x y hxy =>
    (div_lt_div_iff_of_pos_right hSpos).mpr (Real.exp_lt_exp.mpr (by linarith))
  have hsoft : softmax (m.scoreList feats) =
      (m.likList feats).map fun q => (q.1, Real.exp (c + q.2) / S) := by
    have hD : (List.map (fun r : String × ℝ => Real.exp r.2)
        (List.map (fun q : String × ℝ => (q.1, c + q.2)) (m.likList feats))).sum = S := by
      rw [← hshift]
    rw [softmax_eq, hshift, List.map_map]
    refine List.map_congr_left fun q _ => ?_
    simp only [Function.comp_apply]
    rw [hD]
  have hmap : softmax (m.scoreList feats) =
      (s.1, Real.exp (c + s.2) / S) ::
        (ss.map fun q => (q.1, Real.exp (c + q.2) / S)) := by
    rw [hsoft, hlik, List.map_cons]
  rw [hmap] at hsm
  have hs' : s' = (s.1, Real.exp (c + s.2) / S) :=
    (List.cons.injEq _ _ _ _ ▸ hsm.symm).1
  have hss' : ss' = ss.map fun q => (q.1, Real.exp (c + q.2) / S) :=
    (List.cons.injEq _ _ _ _ ▸ hsm.symm).2
  have hkey : (argmaxFirst s' ss').1 = (argmaxFirst s ss).1 := by
    rw [hs', hss']
    have hm := argmaxFirst_map (fun v => Real.exp (c + v) / S) hψ s ss
    rw [show ((s.1, Real.exp (c + s.2) / S) : String × ℝ) =
      (s.1, (fun v : ℝ => Real.exp (c + v) / S) s.2) from rfl] at *
    rw [hm]
  refine ⟨e, _, hexp, hpred, ?_⟩
  rw [hepred]
  exact hkey.symm

/-- Witness for the amended C1 at a balanced model (both labels have two
training documents, hence equal priors). -/
theorem claim_C1_witness :
    ∃ e lab, wfModelEx.explain "hello" 3 = .ok e ∧
      wfModelEx.predict "hello" = .ok lab ∧ e.prediction = lab :=
  claim_C1_amended wfModelEx (by decide) wfModelEx_labels_ne 2 (by decide) "hello" 3

theorem explainModelEx_labels : explainModelEx.labels = ["a", "b"] := by
  show List.insertionSort (· ≤ ·) ["a", "b"] = ["a", "b"]
  simp only [List.insertionSort, List.orderedInsert, String.le_iff_toList_le,
    if_pos (by decide : ("a".toList : List Char) ≤ "b".toList)]

theorem explainModelEx_labels_ne : explainModelEx.labels ≠ [] := by
  rw [explainModelEx_labels]
  simp

theorem explainModelEx_likA :
    explainModelEx.likScore [("x", 1)] "a" = Real.log ((1 : ℝ) / 4) := by
  unfold likScore
  rw [show getD explainModelEx.token_counts "a" [] = [("y", 2)] from by decide,
    show getD explainModelEx.total_tokens "a" 0 = 2 from by decide,
    show explainModelEx.vocabSize = 2 from by decide]
  simp only [List.map_cons, List.map_nil, List.sum_cons, List.sum_nil]
  rw [show getD [(("y" : String), (2 : Int))] "x" 0 = 0 from by decide]
  norm_num

theorem explainModelEx_likB :
    explainModelEx.likScore [("x", 1)] "b" = Real.log ((3 : ℝ) / 4) := by
  unfold likScore
  rw [show getD explainModelEx.token_counts "b" [] = [("x", 2)] from by decide,
    show getD explainModelEx.total_tokens "b" 0 = 2 from by decide,
    show explainModelEx.vocabSize = 2 from by decide]
  simp only [List.map_cons, List.map_nil, List.sum_cons, List.sum_nil]
  rw [show getD [(("x" : String), (2 : Int))] "x" 0 = 2 from by decide]
  norm_num

theorem explainModelEx_scoreA :
    explainModelEx.labelScore [("x", 1)] "a" =
      Real.log ((9 : ℝ) / 10) + Real.log ((1 : ℝ) / 4) := by
  unfold labelScore
  rw [explainModelEx_likA,
    show getD explainModelEx.label_counts "a" 0 = 9 from by decide,
    show explainModelEx.totalDocs = 10 from by decide]
  norm_num

theorem explainModelEx_scoreB :
    explainModelEx.labelScore [("x", 1)] "b" =
      Real.log ((1 : ℝ) / 10) + Real.log ((3 : ℝ) / 4) := by
  unfold labelScore
  rw [explainModelEx_likB,
    show getD explainModelEx.label_counts "b" 0 = 1 from by decide,
    show explainModelEx.totalDocs = 10 from by decide]
  norm_num

theorem explainModelEx_scoreB_lt_scoreA :
    explainModelEx.labelScore [("x", 1)] "b" <
      explainModelEx.labelScore [("x", 1)] "a" := by
  rw [explainModelEx_scoreA, explainModelEx_scoreB,
    ← Real.log_mul (by norm_num) (by norm_num),
    ← Real.log_mul (by norm_num) (by norm_num)]
  exact Real.log_lt_log (by norm_num) (by norm_num)

/-- Counterexample to C1 as stated: on the well-formed model
`explainModelEx` (priors 9:1 for "a", likelihoods favouring "b" on token
"x"), `predict` returns "a" but `explain`'s `prediction` field is "b" —
`explain` maximises the likelihood-only score and ignores the prior. -/
theorem claim_C1_counterexample :
    Wellformed explainModelEx ∧ explainModelEx.labels ≠ [] ∧
    ∃ e, explainModelEx.explain "x" 8 = .ok e ∧
      explainModelEx.predict "x" = .ok "a" ∧
      e.prediction = "b" := by
  refine ⟨by decide, explainModelEx_labels_ne, ?_⟩
  obtain ⟨s, ss, e, hlik, hexp, hepred, _⟩ :=
    explain_ok explainModelEx (by decide) explainModelEx_labels_ne "x" 8
  obtain ⟨s', ss', hsm, hpred⟩ :=
    predict_ok explainModelEx (by decide) explainModelEx_labels_ne "x"
  have hfeats : counterOf (tokenize "x" explainModelEx.config) = [("x", 1)] := by
    decide
  have hlikList : explainModelEx.likList [("x", 1)] =
      [("a", Real.log ((1 : ℝ) / 4)), ("b", Real.log ((3 : ℝ) / 4))] := by
    unfold likList
    rw [explainModelEx_labels, List.map_cons, List.map_cons, List.map_nil,
      explainModelEx_likA, explainModelEx_likB]
  rw [hfeats, hlikList] at hlik
  injection hlik with hs hss
  have hamax : (argmaxFirst s ss).1 = "b" := by
    rw [← hs, ← hss]
    show (if Real.log ((1 : ℝ) / 4) < Real.log ((3 : ℝ) / 4) then
        (("b" : String), Real.log ((3 : ℝ) / 4)) else ("a", Real.log ((1 : ℝ) / 4))).1 = "b"
    rw [if_pos (Real.log_lt_log (by norm_num) (by norm_num))]
  have hscoreList : explainModelEx.scoreList [("x", 1)] =
      [("a", Real.log ((9 : ℝ) / 10) + Real.log ((1 : ℝ) / 4)),
       ("b", Real.log ((1 : ℝ) / 10) + Real.log ((3 : ℝ) / 4))] := by
    unfold scoreList
    rw [explainModelEx_labels, List.map_cons, List.map_cons, List.map_nil,
      explainModelEx_scoreA, explainModelEx_scoreB]
  set sA := Real.log ((9 : ℝ) / 10) + Real.log ((1 : ℝ) / 4) with hsA
  set sB := Real.log ((1 : ℝ) / 10) + Real.log ((3 : ℝ) / 4) with hsB
  have hsum : ((explainModelEx.scoreList [("x", 1)]).map
      fun r => Real.exp r.2).sum = Real.exp sA + Real.exp sB := by
    rw [hscoreList]
    simp
  have hsoftm : softmax (explainModelEx.scoreList [("x", 1)]) =
      [("a", Real.exp sA / (Real.exp sA + Real.exp sB)),
       ("b", Real.exp sB / (Real.exp sA + Real.exp sB))] := by
    rw [softmax_eq, hsum, hscoreList]
    simp
  rw [hfeats, hsoftm] at hsm
  injection hsm with hs' hss'
  have hBA : explainModelEx.labelScore [("x", 1)] "b" <
      explainModelEx.labelScore [("x", 1)] "a" := explainModelEx_scoreB_lt_scoreA
  rw [explainModelEx_scoreA, explainModelEx_scoreB] at hBA
  have hSpos : 0 < Real.exp sA + Real.exp sB :=
    add_pos (Real.exp_pos _) (Real.exp_pos _)
  have hamax' : (argmaxFirst s' ss').1 = "a" := by
    rw [← hs', ← hss']
    show (if Real.exp sA / (Real.exp sA + Real.exp sB) <
        Real.exp sB / (Real.exp sA + Real.exp sB) then
        (("b" : String), Real.exp sB / (Real.exp sA + Real.exp sB))
      else ("a", Real.exp sA / (Real.exp sA + Real.exp sB))).1 = "a"
    rw [if_neg (not_lt.mpr (le_of_lt
      ((div_lt_div_iff_of_pos_right hSpos).mpr (Real.exp_lt_exp.mpr hBA))))]
  rw [hamax'] at hpred
  exact ⟨e, hexp, hpred, by rw [hepred, hamax]⟩

end NaiveBayesModel

/-! ## Claim C6: drift divergence — KL/JSD groundwork -/

theorem klEps_pos : 0 < klEps := by
  unfold klEps
  norm_num

theorem dlookup_map_self (K : List String) (f : String → ℝ) (k : String)
    (hk : k ∈ K) : dlookup (K.map fun x => (x, f x)) k = some (f k) := by
  induction K with
  | nil => simp at hk
  | cons a K ih =>
    rw [List.map_cons, dlookup_cons]
    by_cases ha : a = k
    · subst ha
      simp
    · rw [if_neg ha]
      refine ih ?_
      rcases List.mem_cons.mp hk with rfl | hk
      · exact absurd rfl ha
      · exact hk

theorem getD_map_self (K : List String) (f : String → ℝ) (k : String) (d : ℝ)
    (hk : k ∈ K) : getD (K.map fun x => (x, f x)) k d = f k := by
  rw [getD, dlookup_map_self K f k hk]
  rfl

theorem getD_nonneg_of_vals (l : List (String × ℝ))
    (h : ∀ e ∈ l, e.2 = 0 ∨ 2 * klEps ≤ e.2) (k : String) : 0 ≤ getD l k 0 := by
  rw [getD]
  cases hdl : dlookup l k with
  | none => simp
  | some w =>
    rcases h _ (dlookup_mem hdl) with hw | hw
    · have hw' : w = 0 := hw
      simp only [Option.getD_some]
      exact le_of_eq hw'.symm
    · have hw' : 2 * klEps ≤ w := hw
      have := klEps_pos
      simp only [Option.getD_some]
      linarith

theorem getD_eq_of_mem_nodup (l : List (String × ℝ)) (hnd : (keysOf l).Nodup)
    {e : String × ℝ} (he : e ∈ l) : getD l e.1 0 = e.2 := by
  induction l with
  | nil => simp at he
  | cons p l ih =>
    have hnotin : p.1 ∉ keysOf l := (List.nodup_cons.mp hnd).1
    have hnd' : (keysOf l).Nodup := (List.nodup_cons.mp hnd).2
    rcases List.mem_cons.mp he with rfl | he
    · rw [getD, dlookup_cons, if_pos rfl]
      rfl
    · have hne : ¬ p.1 = e.1 := by
        intro hh
        exact hnotin (hh ▸ (List.mem_map.mpr ⟨e, he, rfl⟩))
      rw [getD, dlookup_cons, if_neg hne]
      exact ih hnd' he

theorem getD_eq_zero_of_notmem (l : List (String × ℝ)) (k : String)
    (hk : k ∉ keysOf l) : getD l k 0 = 0 := by
  rw [getD]
  cases hdl : dlookup l k with
  | none => rfl
  | some w =>
    exact absurd ((dlookup_isSome_iff _ _).mp (by rw [hdl]; rfl)) hk

theorem sum_getD_keys_real (l : List (String × ℝ)) (hnd : (keysOf l).Nodup) :
    ((keysOf l).map fun k => getD l k 0).sum = (l.map Prod.snd).sum := by
  induction l with
  | nil => rfl
  | cons p l ih =>
    have hnotin : p.1 ∉ keysOf l := (List.nodup_cons.mp hnd).1
    have hnd' : (keysOf l).Nodup := (List.nodup_cons.mp hnd).2
    have h1 : getD (p :: l) p.1 0 = p.2 := by
      rw [getD, dlookup_cons, if_pos rfl]
      rfl
    have h2 : (keysOf l).map (fun k => getD (p :: l) k 0) =
        (keysOf l).map (fun k => getD l k 0) := by
      refine List.map_congr_left fun k hk => ?_
      have hne : ¬ p.1 = k := fun h => hnotin (h ▸ hk)
      rw [getD, dlookup_cons, if_neg hne]
      rfl
    simp only [keysOf_cons, List.map_cons, List.sum_cons, List.map_cons,
      List.sum_cons, h1, h2, ih hnd']

theorem sum_le_sum_of_sub (l K : List String) (f : String → ℝ)
    (hl : l.Nodup) (hK : K.Nodup) (hsub : ∀ k ∈ l, k ∈ K)
    (hf : ∀ k ∈ K, 0 ≤ f k) :
    (l.map f).sum ≤ (K.map f).sum := by
  rw [← List.sum_toFinset _ hl, ← List.sum_toFinset _ hK]
  refine Finset.sum_le_sum_of_subset_of_nonneg ?_ ?_
  · intro x hx
    rw [List.mem_toFinset] at hx ⊢
    exact hsub x hx
  · intro x hx _
    exact hf x (List.mem_toFinset.mp hx)

theorem sum_getD_over_superset (p : List (String × ℝ)) (K : List String)
    (hpnd : (keysOf p).Nodup) (hKnd : K.Nodup)
    (hsub : ∀ k ∈ keysOf p, k ∈ K) :
    (K.map fun k => getD p k 0).sum = (p.map Prod.snd).sum := by
  have hsubF : (keysOf p).toFinset ⊆ K.toFinset := fun x hx =>
    List.mem_toFinset.mpr (hsub x (List.mem_toFinset.mp hx))
  have h0 : ∀ x ∈ K.toFinset, x ∉ (keysOf p).toFinset → getD p x 0 = 0 :=
    fun x _ hx =>
      getD_eq_zero_of_notmem p x (fun hm => hx (List.mem_toFinset.mpr hm))
  have heq : ((keysOf p).toFinset.sum fun k => getD p k 0) =
      K.toFinset.sum fun k => getD p k 0 := Finset.sum_subset hsubF h0
  rw [← List.sum_toFinset _ hKnd, ← heq, List.sum_toFinset _ hpnd]
  exact sum_getD_keys_real p hpnd

theorem sum_map_add_real {α : Type _} (l : List α) (f g : α → ℝ) :
    (l.map fun x => f x + g x).sum = (l.map f).sum + (l.map g).sum := by
  induction l with
  | nil => simp
  | cons a as ih =>
    simp only [List.map_cons, List.sum_cons, ih]
    ring

theorem sum_map_mul_left_real {α : Type _} (l : List α) (c : ℝ) (f : α → ℝ) :
    (l.map fun x => c * f x).sum = c * (l.map f).sum := by
  induction l with
  | nil => simp
  | cons a as ih =>
    simp only [List.map_cons, List.sum_cons, ih]
    ring

theorem sum_map_sub_div {α : Type _} (l : List α) (f g : α → ℝ) (c : ℝ) :
    (l.map fun x => (f x - g x) / c).sum = ((l.map f).sum - (l.map g).sum) / c := by
  induction l with
  | nil => simp
  | cons a as ih =>
    simp only [List.map_cons, List.sum_cons, ih]
    ring

theorem keysOf_setA_nodup {α : Type _} (l : List (String × α)) (k : String) (v : α)
    (h : (keysOf l).Nodup) : (keysOf (setA l k v)).Nodup := by
  induction l with
  | nil => simp [setA, keysOf]
  | cons p l ih =>
    have hnotin : p.1 ∉ keysOf l := (List.nodup_cons.mp h).1
    have hnd' : (keysOf l).Nodup := (List.nodup_cons.mp h).2
    by_cases hp : p.1 = k
    · subst hp
      have : setA (p :: l) p.1 v = (p.1, v) :: l := by simp [setA]
      rw [this]
      exact h
    · have : setA (p :: l) k v = p :: setA l k v := by simp [setA, hp]
      rw [this, keysOf_cons, List.nodup_cons]
      refine ⟨?_, ih hnd'⟩
      rcases keysOf_setA l k v with hk | hk
      · rw [hk]
        exact hnotin
      · rw [hk]
        intro hmem
        rcases List.mem_append.mp hmem with hmem | hmem
        · exact hnotin hmem
        · simp at hmem
          exact hp hmem

theorem counterUpdate_keys_nodup (items : List (String × Int)) :
    ∀ acc : List (String × Int), (keysOf acc).Nodup →
      (keysOf (counterUpdate acc items)).Nodup := by
  induction items with
  | nil => intro acc h; exact h
  | cons it items ih =>
    intro acc h
    exact ih _ (keysOf_setA_nodup _ _ _ h)

theorem counterOf_keys_nodup (tokens : List String) :
    (keysOf (counterOf tokens)).Nodup := by
  unfold counterOf
  suffices h : ∀ acc : List (String × Int), (keysOf acc).Nodup →
      (keysOf (tokens.foldl (fun acc t => bumpI acc t 1) acc)).Nodup by
    exact h [] (by simp [keysOf])
  induction tokens with
  | nil => intro acc h; exact h
  | cons t ts ih =>
    intro acc h
    exact ih _ (keysOf_setA_nodup _ _ _ h)

theorem keysOf_map_pair {α β : Type _} (l : List (String × α)) (f : String × α → β) :
    keysOf (l.map fun p => (p.1, f p)) = keysOf l := by
  unfold keysOf
  rw [List.map_map]
  rfl

theorem normalizeDist_keys_nodup (c : List (String × Int))
    (h : (keysOf c).Nodup) : (keysOf (normalizeDist c)).Nodup := by
  unfold normalizeDist
  by_cases h0 : sumVals c = 0
  · simp [h0, keysOf]
  · rw [if_neg h0, keysOf_map_pair]
    exact h

theorem normalizeDist_sum (c : List (String × Int)) :
    normalizeDist c = [] ∨ ((normalizeDist c).map Prod.snd).sum = 1 := by
  unfold normalizeDist
  by_cases h0 : sumVals c = 0
  · left
    simp [h0]
  · right
    rw [if_neg h0, List.map_map]
    have hcg : (c.map (Prod.snd ∘ fun p : String × Int =>
        (p.1, (p.2 : ℝ) / (sumVals c : ℝ)))) =
        (c.map fun p : String × Int => (p.2 : ℝ) / (sumVals c : ℝ)) :=
      List.map_congr_left fun p _ => rfl
    rw [hcg]
    have hsplit : (c.map fun p : String × Int => (p.2 : ℝ) / (sumVals c : ℝ)) =
        ((c.map fun p : String × Int => (p.2 : ℝ)).map
          fun x => x / (sumVals c : ℝ)) := by
      rw [List.map_map]
      rfl
    have hcast : (c.map fun p : String × Int => (p.2 : ℝ)).sum =
        ((sumVals c : Int) : ℝ) := by
      unfold sumVals
      rw [Int.cast_list_sum, List.map_map]
      rfl
    rw [hsplit, sum_map_div, List.map_id', hcast]
    exact div_self (by exact_mod_cast h0)

theorem kl_term_ub (v w : ℝ) (hv : 0 < v) (hw : v / 2 ≤ w) :
    v * Real.logb 2 (v / max w klEps) ≤ v := by
  have hmax : 0 < max w klEps := lt_of_lt_of_le klEps_pos (le_max_right _ _)
  have hratio : v / max w klEps ≤ 2 := by
    rw [div_le_iff₀ hmax]
    have h1 : v / 2 ≤ max w klEps := le_trans hw (le_max_left _ _)
    linarith
  have hlogb : Real.logb 2 (v / max w klEps) ≤ 1 := by
    have h0 : 0 < v / max w klEps := div_pos hv hmax
    calc Real.logb 2 (v / max w klEps) ≤ Real.logb 2 2 :=
          Real.logb_le_logb_of_le (by norm_num) h0 hratio
      _ = 1 := Real.logb_self_eq_one (by norm_num)
  calc v * Real.logb 2 (v / max w klEps) ≤ v * 1 :=
        mul_le_mul_of_nonneg_left hlogb hv.le
    _ = v := mul_one v

theorem kl_term_lb (v w : ℝ) (hv : 0 < v) (hweps : klEps ≤ w) :
    (v - w) / Real.log 2 ≤ v * Real.logb 2 (v / max w klEps) := by
  have hw0 : 0 < w := lt_of_lt_of_le klEps_pos hweps
  have hlog2 : 0 < Real.log 2 := Real.log_pos (by norm_num)
  rw [max_eq_left hweps, Real.logb]
  have hli : Real.log (w / v) ≤ w / v - 1 :=
    Real.log_le_sub_one_of_pos (div_pos hw0 hv)
  have hinv : Real.log (v / w) = - Real.log (w / v) := by
    rw [← Real.log_inv, inv_div]
  have key : v - w ≤ v * Real.log (v / w) := by
    rw [hinv]
    have h1 : v * Real.log (w / v) ≤ v * (w / v - 1) :=
      mul_le_mul_of_nonneg_left hli hv.le
    have h2 : v * (w / v - 1) = w - v := by
      field_simp
    nlinarith
  calc (v - w) / Real.log 2 ≤ (v * Real.log (v / w)) / Real.log 2 :=
        (div_le_div_iff_of_pos_right hlog2).mpr key
    _ = v * (Real.log (v / w) / Real.log 2) := by ring

theorem kl_term_lb_strict (v w : ℝ) (hv : 0 < v) (hweps : klEps ≤ w)
    (hne : v ≠ w) :
    (v - w) / Real.log 2 < v * Real.logb 2 (v / max w klEps) := by
  have hw0 : 0 < w := lt_of_lt_of_le klEps_pos hweps
  have hlog2 : 0 < Real.log 2 := Real.log_pos (by norm_num)
  rw [max_eq_left hweps, Real.logb]
  have hne1 : w / v ≠ 1 := by
    intro h
    exact hne ((div_eq_one_iff_eq (ne_of_gt hv)).mp h).symm
  have hli : Real.log (w / v) < w / v - 1 :=
    Real.log_lt_sub_one_of_pos (div_pos hw0 hv) hne1
  have hinv : Real.log (v / w) = - Real.log (w / v) := by
    rw [← Real.log_inv, inv_div]
  have key : v - w < v * Real.log (v / w) := by
    rw [hinv]
    have h1 : v * Real.log (w / v) < v * (w / v - 1) :=
      (mul_lt_mul_left hv).mpr hli
    have h2 : v * (w / v - 1) = w - v := by
      field_simp
    nlinarith
  calc (v - w) / Real.log 2 < (v * Real.log (v / w)) / Real.log 2 :=
        (div_lt_div_iff_of_pos_right hlog2).mpr key
    _ = v * (Real.log (v / w) / Real.log 2) := by ring

/-- `jsd` unfolded to its `if` form. -/
theorem jsd_if (p q : List (String × ℝ)) :
    jsd p q = if ((keysOf p ++ keysOf q).dedup).isEmpty then 0
      else (1 / 2 : ℝ) * (klDiv p ((keysOf p ++ keysOf q).dedup.map fun k =>
          (k, (1 / 2 : ℝ) * (getD p k 0 + getD q k 0))) +
        klDiv q ((keysOf p ++ keysOf q).dedup.map fun k =>
          (k, (1 / 2 : ℝ) * (getD p k 0 + getD q k 0)))) := rfl

theorem getD_ne_zero_mem (l : List (String × ℝ)) (k : String)
    (h : getD l k 0 ≠ 0) : ∃ v, (k, v) ∈ l ∧ getD l k 0 = v := by
  rw [getD] at h ⊢
  cases hdl : dlookup l k with
  | none => rw [hdl] at h; exact absurd rfl h
  | some v => exact ⟨v, dlookup_mem hdl, rfl⟩

/-- Per-entry lower bound for a `klDiv` summand against the JSD midpoint. -/
theorem kl_entry_lb (p M : List (String × ℝ)) (mf : String → ℝ)
    (hpv : ∀ e ∈ p, e.2 = 0 ∨ 2 * klEps ≤ e.2)
    (hMget : ∀ e ∈ p, getD M e.1 klEps = mf e.1)
    (hmf_half : ∀ e ∈ p, e.2 / 2 ≤ mf e.1)
    (hmf_nonneg : ∀ e ∈ p, 0 ≤ mf e.1)
    (e : String × ℝ) (he : e ∈ p) :
    (e.2 - mf e.1) / Real.log 2 ≤
      (if e.2 = 0 then 0
       else e.2 * Real.logb 2 (e.2 / max (getD M e.1 klEps) klEps)) := by
  have hlog2 : (0:ℝ) < Real.log 2 := Real.log_pos (by norm_num)
  by_cases hz : e.2 = 0
  · rw [if_pos hz, hz]
    have h1 := hmf_nonneg e he
    have h2 : (0:ℝ) - mf e.1 ≤ 0 := by linarith
    exact div_nonpos_of_nonpos_of_nonneg h2 hlog2.le
  · rw [if_neg hz, hMget e he]
    rcases hpv e he with h | h
    · exact absurd h hz
    · have heps := klEps_pos
      have hv : 0 < e.2 := by linarith
      have hweps : klEps ≤ mf e.1 := le_trans (by linarith) (hmf_half e he)
      exact kl_term_lb e.2 (mf e.1) hv hweps

/-- Upper bound: each `klDiv` term against the midpoint is at most the
probability mass of its entry. -/
theorem klDiv_mid_ub (p M : List (String × ℝ)) (mf : String → ℝ)
    (hpv : ∀ e ∈ p, e.2 = 0 ∨ 2 * klEps ≤ e.2)
    (hMget : ∀ e ∈ p, getD M e.1 klEps = mf e.1)
    (hmf_half : ∀ e ∈ p, e.2 / 2 ≤ mf e.1) :
    klDiv p M ≤ (p.map Prod.snd).sum := by
  unfold klDiv
  refine List.sum_le_sum fun e he => ?_
  by_cases hz : e.2 = 0
  · rw [if_pos hz, hz]
  · rw [if_neg hz, hMget e he]
    rcases hpv e he with h | h
    · exact absurd h hz
    · have heps := klEps_pos
      have hv : 0 < e.2 := by linarith
      exact kl_term_ub e.2 (mf e.1) hv (hmf_half e he)

/-- Lower bound on `klDiv` against the midpoint. -/
theorem klDiv_mid_lb (p M : List (String × ℝ)) (mf : String → ℝ)
    (hpv : ∀ e ∈ p, e.2 = 0 ∨ 2 * klEps ≤ e.2)
    (hMget : ∀ e ∈ p, getD M e.1 klEps = mf e.1)
    (hmf_half : ∀ e ∈ p, e.2 / 2 ≤ mf e.1)
    (hmf_nonneg : ∀ e ∈ p, 0 ≤ mf e.1) :
    ((p.map Prod.snd).sum - (p.map fun e => mf e.1).sum) / Real.log 2 ≤
      klDiv p M := by
  unfold klDiv
  have h1 := sum_map_sub_div p Prod.snd (fun e => mf e.1) (Real.log 2)
  rw [← h1]
  exact List.sum_le_sum (kl_entry_lb p M mf hpv hMget hmf_half hmf_nonneg)

/-- Strict lower bound on `klDiv` against the midpoint, given one entry whose
probability differs from the midpoint value. -/
theorem klDiv_mid_lb_strict (p M : List (String × ℝ)) (mf : String → ℝ)
    (hpv : ∀ e ∈ p, e.2 = 0 ∨ 2 * klEps ≤ e.2)
    (hMget : ∀ e ∈ p, getD M e.1 klEps = mf e.1)
    (hmf_half : ∀ e ∈ p, e.2 / 2 ≤ mf e.1)
    (hmf_nonneg : ∀ e ∈ p, 0 ≤ mf e.1)
    (e₀ : String × ℝ) (he₀ : e₀ ∈ p) (h₀z : e₀.2 ≠ 0) (h₀ne : e₀.2 ≠ mf e₀.1) :
    ((p.map Prod.snd).sum - (p.map fun e => mf e.1).sum) / Real.log 2 <
      klDiv p M := by
  unfold klDiv
  have h1 := sum_map_sub_div p Prod.snd (fun e => mf e.1) (Real.log 2)
  rw [← h1]
  refine List.sum_lt_sum _ _ (kl_entry_lb p M mf hpv hMget hmf_half hmf_nonneg)
    ⟨e₀, he₀, ?_⟩
  rw [if_neg h₀z, hMget e₀ he₀]
  rcases hpv e₀ he₀ with h | h
  · exact absurd h h₀z
  · have heps := klEps_pos
    have hv : 0 < e₀.2 := by linarith
    have hweps : klEps ≤ mf e₀.1 := le_trans (by linarith) (hmf_half e₀ he₀)
    exact kl_term_lb_strict e₀.2 (mf e₀.1) hv hweps h₀ne

/-- The JSD bounds over an arbitrary duplicate-free key superset `K`. -/
theorem jsd_bounds_aux (p q : List (String × ℝ)) (K : List String)
    (hpnd : (keysOf p).Nodup) (hqnd : (keysOf q).Nodup)
    (hpv : ∀ e ∈ p, e.2 = 0 ∨ 2 * klEps ≤ e.2)
    (hqv : ∀ e ∈ q, e.2 = 0 ∨ 2 * klEps ≤ e.2)
    (hps : p = [] ∨ (p.map Prod.snd).sum = 1)
    (hqs : q = [] ∨ (q.map Prod.snd).sum = 1)
    (hKnd : K.Nodup)
    (hsubp : ∀ k ∈ keysOf p, k ∈ K) (hsubq : ∀ k ∈ keysOf q, k ∈ K) :
    0 ≤ (1 / 2 : ℝ) *
        (klDiv p (K.map fun k => (k, (1 / 2 : ℝ) * (getD p k 0 + getD q k 0))) +
         klDiv q (K.map fun k => (k, (1 / 2 : ℝ) * (getD p k 0 + getD q k 0)))) ∧
      (1 / 2 : ℝ) *
        (klDiv p (K.map fun k => (k, (1 / 2 : ℝ) * (getD p k 0 + getD q k 0))) +
         klDiv q (K.map fun k => (k, (1 / 2 : ℝ) * (getD p k 0 + getD q k 0)))) ≤ 1 ∧
      ((1 / 2 : ℝ) *
        (klDiv p (K.map fun k => (k, (1 / 2 : ℝ) * (getD p k 0 + getD q k 0))) +
         klDiv q (K.map fun k => (k, (1 / 2 : ℝ) * (getD p k 0 + getD q k 0)))) = 0 ↔
        ∀ k, getD p k 0 = getD q k 0) := by
  set M := K.map fun k => (k, (1 / 2 : ℝ) * (getD p k 0 + getD q k 0)) with hMdef
  have hlog2 : (0:ℝ) < Real.log 2 := Real.log_pos (by norm_num)
  have hmfget : ∀ k ∈ K, getD M k klEps = (1 / 2 : ℝ) * (getD p k 0 + getD q k 0) :=
    fun k hk => getD_map_self K _ k klEps hk
  have hpnn : ∀ k, 0 ≤ getD p k 0 := getD_nonneg_of_vals p hpv
  have hqnn : ∀ k, 0 ≤ getD q k 0 := getD_nonneg_of_vals q hqv
  have hmem_p : ∀ e ∈ p, e.1 ∈ K := fun e he =>
    hsubp e.1 (List.mem_map.mpr ⟨e, he, rfl⟩)
  have hmem_q : ∀ e ∈ q, e.1 ∈ K := fun e he =>
    hsubq e.1 (List.mem_map.mpr ⟨e, he, rfl⟩)
  have hMgetp : ∀ e ∈ p, getD M e.1 klEps =
      (1 / 2 : ℝ) * (getD p e.1 0 + getD q e.1 0) :=
    fun e he => hmfget e.1 (hmem_p e he)
  have hMgetq : ∀ e ∈ q, getD M e.1 klEps =
      (1 / 2 : ℝ) * (getD p e.1 0 + getD q e.1 0) :=
    fun e he => hmfget e.1 (hmem_q e he)
  have hhalfp : ∀ e ∈ p, e.2 / 2 ≤ (1 / 2 : ℝ) * (getD p e.1 0 + getD q e.1 0) := by
    intro e he
    have h1 : getD p e.1 0 = e.2 := getD_eq_of_mem_nodup p hpnd he
    have h2 := hqnn e.1
    rw [h1]
    linarith
  have hhalfq : ∀ e ∈ q, e.2 / 2 ≤ (1 / 2 : ℝ) * (getD p e.1 0 + getD q e.1 0) := by
    intro e he
    have h1 : getD q e.1 0 = e.2 := getD_eq_of_mem_nodup q hqnd he
    have h2 := hpnn e.1
    rw [h1]
    linarith
  have hnnp : ∀ e ∈ p, (0:ℝ) ≤ (1 / 2 : ℝ) * (getD p e.1 0 + getD q e.1 0) := by
    intro e _
    have := hpnn e.1
    have := hqnn e.1
    linarith
  have hnnq : ∀ e ∈ q, (0:ℝ) ≤ (1 / 2 : ℝ) * (getD p e.1 0 + getD q e.1 0) := by
    intro e _
    have := hpnn e.1
    have := hqnn e.1
    linarith
  have hsp_le : (p.map Prod.snd).sum ≤ 1 := by
    rcases hps with h | h
    · rw [h]; norm_num
    · rw [h]
  have hsq_le : (q.map Prod.snd).sum ≤ 1 := by
    rcases hqs with h | h
    · rw [h]; norm_num
    · rw [h]
  have hsp_nn : 0 ≤ (p.map Prod.snd).sum := by
    rcases hps with h | h
    · rw [h]; norm_num
    · rw [h]; norm_num
  have hsq_nn : 0 ≤ (q.map Prod.snd).sum := by
    rcases hqs with h | h
    · rw [h]; norm_num
    · rw [h]; norm_num
  have hKsum : (K.map fun k => (1 / 2 : ℝ) * (getD p k 0 + getD q k 0)).sum ≤ 1 := by
    rw [sum_map_mul_left_real K ((1:ℝ)/2) (fun k => getD p k 0 + getD q k 0),
      sum_map_add_real K (fun k => getD p k 0) (fun k => getD q k 0),
      sum_getD_over_superset p K hpnd hKnd hsubp,
      sum_getD_over_superset q K hqnd hKnd hsubq]
    linarith
  have hTP_le : (p.map fun e => (1 / 2 : ℝ) * (getD p e.1 0 + getD q e.1 0)).sum ≤ 1 := by
    have hmm : (p.map fun e => (1 / 2 : ℝ) * (getD p e.1 0 + getD q e.1 0)) =
        ((keysOf p).map fun k => (1 / 2 : ℝ) * (getD p k 0 + getD q k 0)) := by
      unfold keysOf
      rw [List.map_map]
      rfl
    rw [hmm]
    refine le_trans (sum_le_sum_of_sub (keysOf p) K _ hpnd hKnd hsubp ?_) hKsum
    intro k _
    have := hpnn k
    have := hqnn k
    linarith
  have hTQ_le : (q.map fun e => (1 / 2 : ℝ) * (getD p e.1 0 + getD q e.1 0)).sum ≤ 1 := by
    have hmm : (q.map fun e => (1 / 2 : ℝ) * (getD p e.1 0 + getD q e.1 0)) =
        ((keysOf q).map fun k => (1 / 2 : ℝ) * (getD p k 0 + getD q k 0)) := by
      unfold keysOf
      rw [List.map_map]
      rfl
    rw [hmm]
    refine le_trans (sum_le_sum_of_sub (keysOf q) K _ hqnd hKnd hsubq ?_) hKsum
    intro k _
    have := hpnn k
    have := hqnn k
    linarith
  have hub_p : klDiv p M ≤ (p.map Prod.snd).sum :=
    klDiv_mid_ub p M (fun k => (1 / 2 : ℝ) * (getD p k 0 + getD q k 0))
      hpv hMgetp hhalfp
  have hub_q : klDiv q M ≤ (q.map Prod.snd).sum :=
    klDiv_mid_ub q M (fun k => (1 / 2 : ℝ) * (getD p k 0 + getD q k 0))
      hqv hMgetq hhalfq
  have hlb_p : ((p.map Prod.snd).sum -
      (p.map fun e => (1 / 2 : ℝ) * (getD p e.1 0 + getD q e.1 0)).sum) /
        Real.log 2 ≤ klDiv p M :=
    klDiv_mid_lb p M (fun k => (1 / 2 : ℝ) * (getD p k 0 + getD q k 0))
      hpv hMgetp hhalfp hnnp
  have hlb_q : ((q.map Prod.snd).sum -
      (q.map fun e => (1 / 2 : ℝ) * (getD p e.1 0 + getD q e.1 0)).sum) /
        Real.log 2 ≤ klDiv q M :=
    klDiv_mid_lb q M (fun k => (1 / 2 : ℝ) * (getD p k 0 + getD q k 0))
      hqv hMgetq hhalfq hnnq
  have hklp0 : 0 ≤ klDiv p M := by
    rcases hps with h | h
    · subst h
      simp [klDiv]
    · refine le_trans (div_nonneg ?_ hlog2.le) hlb_p
      rw [h]
      linarith [hTP_le]
  have hklq0 : 0 ≤ klDiv q M := by
    rcases hqs with h | h
    · subst h
      simp [klDiv]
    · refine le_trans (div_nonneg ?_ hlog2.le) hlb_q
      rw [h]
      linarith [hTQ_le]
  refine ⟨by linarith, by linarith, ?_, ?_⟩
  · -- zero divergence forces pointwise equality
    intro h0
    by_contra hne
    obtain ⟨k₀, hk₀⟩ := not_forall.mp hne
    have hpos : 0 < (1 / 2 : ℝ) * (klDiv p M + klDiv q M) := by
      by_cases hp0 : getD p k₀ 0 = 0
      · have hq0 : getD q k₀ 0 ≠ 0 := fun h => hk₀ (hp0.trans h.symm)
        obtain ⟨v₀, hv₀mem, hv₀⟩ := getD_ne_zero_mem q k₀ hq0
        have hstrict := klDiv_mid_lb_strict q M
          (fun k => (1 / 2 : ℝ) * (getD p k 0 + getD q k 0))
          hqv hMgetq hhalfq hnnq (k₀, v₀) hv₀mem
          (fun h => hq0 (hv₀.trans h))
          (by
            intro heq
            have heq' : v₀ = (1 / 2 : ℝ) * (getD p k₀ 0 + getD q k₀ 0) := heq
            rw [hp0, hv₀] at heq'
            have hz : v₀ = 0 := by linarith
            exact hq0 (hv₀.trans hz))
        have hql : q ≠ [] := List.ne_nil_of_mem hv₀mem
        have hsq1 : (q.map Prod.snd).sum = 1 := hqs.resolve_left hql
        have hklq_pos : 0 < klDiv q M := by
          refine lt_of_le_of_lt (div_nonneg ?_ hlog2.le) hstrict
          rw [hsq1]
          linarith [hTQ_le]
        linarith
      · obtain ⟨v₀, hv₀mem, hv₀⟩ := getD_ne_zero_mem p k₀ hp0
        have hstrict := klDiv_mid_lb_strict p M
          (fun k => (1 / 2 : ℝ) * (getD p k 0 + getD q k 0))
          hpv hMgetp hhalfp hnnp (k₀, v₀) hv₀mem
          (fun h => hp0 (hv₀.trans h))
          (by
            intro heq
            have heq' : v₀ = (1 / 2 : ℝ) * (getD p k₀ 0 + getD q k₀ 0) := heq
            rw [hv₀] at heq'
            apply hk₀
            have hqv₀ : getD q k₀ 0 = v₀ := by linarith
            rw [hv₀, hqv₀])
        have hpl : p ≠ [] := List.ne_nil_of_mem hv₀mem
        have hsp1 : (p.map Prod.snd).sum = 1 := hps.resolve_left hpl
        have hklp_pos : 0 < klDiv p M := by
          refine lt_of_le_of_lt (div_nonneg ?_ hlog2.le) hstrict
          rw [hsp1]
          linarith [hTP_le]
        linarith
    exact absurd h0 (ne_of_gt hpos)
  · -- pointwise equality forces zero divergence
    intro hpt
    have hzp : klDiv p M = 0 := by
      unfold klDiv
      apply List.sum_eq_zero
      intro x hx
      rcases List.mem_map.mp hx with ⟨e, he, rfl⟩
      by_cases hz : e.2 = 0
      · rw [if_pos hz]
      · rw [if_neg hz]
        have h1 : getD p e.1 0 = e.2 := getD_eq_of_mem_nodup p hpnd he
        have h2eps : 2 * klEps ≤ e.2 := (hpv e he).resolve_left hz
        have heps := klEps_pos
        have h3 : getD M e.1 klEps = e.2 := by
          rw [hMgetp e he, ← hpt e.1, h1]
          ring
        rw [h3, max_eq_left (by linarith), div_self hz, Real.logb_one, mul_zero]
    have hzq : klDiv q M = 0 := by
      unfold klDiv
      apply List.sum_eq_zero
      intro x hx
      rcases List.mem_map.mp hx with ⟨e, he, rfl⟩
      by_cases hz : e.2 = 0
      · rw [if_pos hz]
      · rw [if_neg hz]
        have h1 : getD q e.1 0 = e.2 := getD_eq_of_mem_nodup q hqnd he
        have h2eps : 2 * klEps ≤ e.2 := (hqv e he).resolve_left hz
        have heps := klEps_pos
        have h3 : getD M e.1 klEps = e.2 := by
          rw [hMgetq e he, hpt e.1, h1]
          ring
        rw [h3, max_eq_left (by linarith), div_self hz, Real.logb_one, mul_zero]
    rw [hzp, hzq]
    ring

/-- The Jensen–Shannon divergence of `_jensen_shannon_divergence` is in `[0,1]`
and vanishes exactly on pointwise-identical inputs, provided every nonzero
probability is at least twice the `1e-12` floor. -/
theorem jsd_bounds (p q : List (String × ℝ))
    (hpnd : (keysOf p).Nodup) (hqnd : (keysOf q).Nodup)
    (hpv : ∀ e ∈ p, e.2 = 0 ∨ 2 * klEps ≤ e.2)
    (hqv : ∀ e ∈ q, e.2 = 0 ∨ 2 * klEps ≤ e.2)
    (hps : p = [] ∨ (p.map Prod.snd).sum = 1)
    (hqs : q = [] ∨ (q.map Prod.snd).sum = 1) :
    0 ≤ jsd p q ∧ jsd p q ≤ 1 ∧
      (jsd p q = 0 ↔ ∀ k, getD p k 0 = getD q k 0) := by
  by_cases hKe : ((keysOf p ++ keysOf q).dedup).isEmpty = true
  · have hK0 : (keysOf p ++ keysOf q).dedup = [] := List.isEmpty_iff.mp hKe
    have happ : keysOf p ++ keysOf q = [] := (List.dedup_eq_nil _).mp hK0
    have hp0 : keysOf p = [] := (List.append_eq_nil.mp happ).1
    have hq0 : keysOf q = [] := (List.append_eq_nil.mp happ).2
    have hpnil : p = [] := List.map_eq_nil_iff.mp hp0
    have hqnil : q = [] := List.map_eq_nil_iff.mp hq0
    subst hpnil
    subst hqnil
    have hj : jsd ([] : List (String × ℝ)) [] = 0 := by
      rw [jsd_if, if_pos hKe]
    refine ⟨le_of_eq hj.symm, by rw [hj]; norm_num, ?_, fun _ => hj⟩
    intro _ k
    rfl
  · rw [jsd_if, if_neg hKe]
    exact jsd_bounds_aux p q ((keysOf p ++ keysOf q).dedup) hpnd hqnd hpv hqv
      hps hqs (List.nodup_dedup _)
      (fun k hk => List.mem_dedup.mpr (List.mem_append.mpr (Or.inl hk)))
      (fun k hk => List.mem_dedup.mpr (List.mem_append.mpr (Or.inr hk)))

theorem foldl_counterUpdate_nodup {β : Type _} (l : List β)
    (f : β → List (String × Int)) :
    ∀ acc : List (String × Int), (keysOf acc).Nodup →
      (keysOf (l.foldl (fun a x => counterUpdate a (f x)) acc)).Nodup := by
  induction l with
  | nil => intro acc h; exact h
  | cons x xs ih =>
    intro acc h
    exact ih _ (counterUpdate_keys_nodup (f x) acc h)

theorem modelTokenDistribution_keys_nodup (m : NaiveBayesModel) :
    (keysOf (modelTokenDistribution m)).Nodup := by
  unfold modelTokenDistribution
  exact normalizeDist_keys_nodup _
    (foldl_counterUpdate_nodup m.token_counts (fun p => p.2) [] List.nodup_nil)

theorem tokenDistribution_keys_nodup (texts : List String) (c : FeatureConfig) :
    (keysOf (tokenDistribution texts c)).Nodup := by
  unfold tokenDistribution
  exact normalizeDist_keys_nodup _
    (foldl_counterUpdate_nodup texts (fun t => counterOf (tokenize t c)) []
      List.nodup_nil)

/-- The `js_divergence` field of `drift_report` is the JSD of the model's and
the batch's token distributions. -/
theorem drift_report_js (m : NaiveBayesModel) (texts : List String)
    (top_n : Nat) :
    (drift_report m texts top_n).js_divergence =
      jsd (modelTokenDistribution m) (tokenDistribution texts m.config) := rfl

/-- `_normalize` on a counter with nonzero total, unfolded. -/
theorem normalizeDist_eval (c : List (String × Int)) (h : ¬ sumVals c = 0) :
    normalizeDist c =
      c.map fun p => (p.1, (p.2 : ℝ) / ((sumVals c : Int) : ℝ)) := by
  show (if sumVals c = 0 then ([] : List (String × ℝ))
    else c.map fun p => (p.1, (p.2 : ℝ) / ((sumVals c : Int) : ℝ))) = _
  rw [if_neg h]

/-- C6 (amended): the `js_divergence` of `drift_report` is in `[0,1]`, and is
`0` exactly when the model's aggregate token distribution and the batch's
token distribution are pointwise identical — provided every nonzero
probability in the two distributions is at least `2e-12`, i.e. clear of the
`1e-12` floor `_kl_divergence` substitutes for small reference values.
(Without that proviso the claim is false; see the counterexample.) -/
theorem claim_C6_amended (m : NaiveBayesModel) (texts : List String)
    (top_n : Nat)
    (hm : ∀ e ∈ modelTokenDistribution m, e.2 = 0 ∨ 2 * klEps ≤ e.2)
    (hd : ∀ e ∈ tokenDistribution texts m.config,
      e.2 = 0 ∨ 2 * klEps ≤ e.2) :
    0 ≤ (drift_report m texts top_n).js_divergence ∧
    (drift_report m texts top_n).js_divergence ≤ 1 ∧
    ((drift_report m texts top_n).js_divergence = 0 ↔
      ∀ k, getD (modelTokenDistribution m) k 0 =
        getD (tokenDistribution texts m.config) k 0) := by
  rw [drift_report_js]
  exact jsd_bounds (modelTokenDistribution m) (tokenDistribution texts m.config)
    (modelTokenDistribution_keys_nodup m)
    (tokenDistribution_keys_nodup texts m.config)
    hm hd
    (normalizeDist_sum _) (normalizeDist_sum _)

/-- Witness for C6 (amended) on a concrete well-formed model and batch whose
distribution probabilities (3/5, 2/5 and 1) all clear the `2e-12` bound. -/
theorem claim_C6_witness :
    0 ≤ (drift_report wfModelEx ["aa aa"] 5).js_divergence ∧
    (drift_report wfModelEx ["aa aa"] 5).js_divergence ≤ 1 := by
  have hc : wfModelEx.token_counts.foldl (fun acc p => counterUpdate acc p.2) [] =
      [("aa", (3:Int)), ("bb", (2:Int))] := by decide
  have hP : modelTokenDistribution wfModelEx =
      [("aa", ((3:Int):ℝ) / ((5:Int):ℝ)), ("bb", ((2:Int):ℝ) / ((5:Int):ℝ))] := by
    show normalizeDist
      (wfModelEx.token_counts.foldl (fun acc p => counterUpdate acc p.2) []) = _
    rw [hc, normalizeDist_eval _ (by decide)]
    rfl
  have hcq : (["aa aa"] : List String).foldl
      (fun acc t => counterUpdate acc (counterOf (tokenize t wfModelEx.config)))
      [] = [("aa", (2:Int))] := by decide
  have hQ : tokenDistribution ["aa aa"] wfModelEx.config =
      [("aa", ((2:Int):ℝ) / ((2:Int):ℝ))] := by
    show normalizeDist ((["aa aa"] : List String).foldl
      (fun acc t => counterUpdate acc (counterOf (tokenize t wfModelEx.config)))
      []) = _
    rw [hcq, normalizeDist_eval _ (by decide)]
    rfl
  have hm : ∀ e ∈ modelTokenDistribution wfModelEx,
      e.2 = 0 ∨ 2 * klEps ≤ e.2 := by
    rw [hP]
    intro e he
    rcases List.mem_cons.mp he with rfl | he
    · right
      show 2 * klEps ≤ ((3:Int):ℝ) / ((5:Int):ℝ)
      unfold klEps
      norm_num
    rcases List.mem_cons.mp he with rfl | he
    · right
      show 2 * klEps ≤ ((2:Int):ℝ) / ((5:Int):ℝ)
      unfold klEps
      norm_num
    · simp at he
  have hd : ∀ e ∈ tokenDistribution ["aa aa"] wfModelEx.config,
      e.2 = 0 ∨ 2 * klEps ≤ e.2 := by
    rw [hQ]
    intro e he
    rcases List.mem_cons.mp he with rfl | he
    · right
      show 2 * klEps ≤ ((2:Int):ℝ) / ((2:Int):ℝ)
      unfold klEps
      norm_num
    · simp at he
  have h := claim_C6_amended wfModelEx ["aa aa"] 5 hm hd
  exact ⟨h.1, h.2.1⟩

/-- C6 is refuted: on the well-formed model `driftModelEx` (one label, one
token of frequency `10^-13` — below the `1e-12` KL floor) and the batch
`["bb"]`, `drift_report` returns a strictly negative `js_divergence`,
outside the claimed `[0,1]` range. -/
theorem claim_C6_counterexample :
    Wellformed driftModelEx ∧
    (drift_report driftModelEx ["bb"] 5).js_divergence < 0 := by
  refine ⟨by decide, ?_⟩
  have hc : driftModelEx.token_counts.foldl
      (fun acc p => counterUpdate acc p.2) [] =
      [("aa", (1:Int)), ("bb", (9999999999999:Int))] := by decide
  have hs : sumVals [("aa", (1:Int)), ("bb", (9999999999999:Int))] =
      (10000000000000:Int) := by decide
  have hP : modelTokenDistribution driftModelEx =
      [("aa", (1:ℝ) / 10000000000000),
       ("bb", (9999999999999:ℝ) / 10000000000000)] := by
    show normalizeDist (driftModelEx.token_counts.foldl
      (fun acc p => counterUpdate acc p.2) []) = _
    rw [hc, normalizeDist_eval _ (by decide)]
    simp only [List.map_cons, List.map_nil, hs]
    norm_num
  have hcq : (["bb"] : List String).foldl
      (fun acc t => counterUpdate acc
        (counterOf (tokenize t driftModelEx.config))) [] =
      [("bb", (1:Int))] := by decide
  have hsq : sumVals [("bb", (1:Int))] = 1 := by decide
  have hQ : tokenDistribution ["bb"] driftModelEx.config = [("bb", (1:ℝ))] := by
    show normalizeDist ((["bb"] : List String).foldl
      (fun acc t => counterUpdate acc
        (counterOf (tokenize t driftModelEx.config))) []) = _
    rw [hcq, normalizeDist_eval _ (by decide)]
    simp only [List.map_cons, List.map_nil, hsq]
    norm_num
  rw [drift_report_js, hP, hQ, jsd_if]
  have hK : (keysOf [("aa", (1:ℝ) / 10000000000000),
        ("bb", (9999999999999:ℝ) / 10000000000000)] ++
      keysOf [("bb", (1:ℝ))]).dedup = ["aa", "bb"] := by rfl
  rw [hK, if_neg (by decide : ¬((["aa", "bb"] : List String).isEmpty = true))]
  have hga : getD [("aa", (1:ℝ) / 10000000000000),
      ("bb", (9999999999999:ℝ) / 10000000000000)] "aa" 0 =
      (1:ℝ) / 10000000000000 := by
    rw [getD, dlookup_cons, if_pos rfl]
    rfl
  have hgb : getD [("aa", (1:ℝ) / 10000000000000),
      ("bb", (9999999999999:ℝ) / 10000000000000)] "bb" 0 =
      (9999999999999:ℝ) / 10000000000000 := by
    rw [getD, dlookup_cons, if_neg (by decide : ¬(("aa":String) = "bb")),
      dlookup_cons, if_pos rfl]
    rfl
  have hqa : getD [("bb", (1:ℝ))] "aa" 0 = 0 := by
    rw [getD, dlookup_cons, if_neg (by decide : ¬(("bb":String) = "aa"))]
    rfl
  have hqb : getD [("bb", (1:ℝ))] "bb" 0 = 1 := by
    rw [getD, dlookup_cons, if_pos rfl]
    rfl
  simp only [List.map_cons, List.map_nil, hga, hgb, hqa, hqb]
  have hma : getD [("aa", (1:ℝ) / 2 * ((1:ℝ) / 10000000000000 + 0)),
      ("bb", (1:ℝ) / 2 * ((9999999999999:ℝ) / 10000000000000 + 1))] "aa" klEps =
      (1:ℝ) / 2 * ((1:ℝ) / 10000000000000 + 0) := by
    rw [getD, dlookup_cons, if_pos rfl]
    rfl
  have hmb : getD [("aa", (1:ℝ) / 2 * ((1:ℝ) / 10000000000000 + 0)),
      ("bb", (1:ℝ) / 2 * ((9999999999999:ℝ) / 10000000000000 + 1))] "bb" klEps =
      (1:ℝ) / 2 * ((9999999999999:ℝ) / 10000000000000 + 1) := by
    rw [getD, dlookup_cons, if_neg (by decide : ¬(("aa":String) = "bb")),
      dlookup_cons, if_pos rfl]
    rfl
  simp only [klDiv, List.map_cons, List.map_nil, List.sum_cons, List.sum_nil,
    hma, hmb]
  rw [if_neg (show ¬((1:ℝ) / 10000000000000 = 0) by norm_num),
    if_neg (show ¬((9999999999999:ℝ) / 10000000000000 = 0) by norm_num),
    if_neg (show ¬((1:ℝ) = 0) by norm_num)]
  have hmax1 : max ((1:ℝ) / 2 * ((1:ℝ) / 10000000000000 + 0)) klEps = klEps :=
    max_eq_right (by unfold klEps; norm_num)
  have hmax2 : max ((1:ℝ) / 2 * ((9999999999999:ℝ) / 10000000000000 + 1)) klEps =
      (1:ℝ) / 2 * ((9999999999999:ℝ) / 10000000000000 + 1) :=
    max_eq_left (by unfold klEps; norm_num)
  rw [hmax1, hmax2]
  have hxA : (1:ℝ) / 10000000000000 / klEps = 1 / 10 := by
    unfold klEps
    norm_num
  have h8 : Real.logb 2 8 = 3 := by
    rw [show (8:ℝ) = 2 ^ (3:ℕ) from by norm_num, Real.logb, Real.log_pow]
    have hl2 : Real.log 2 ≠ 0 := ne_of_gt (Real.log_pos (by norm_num))
    field_simp
  have hlogb10 : (3:ℝ) ≤ Real.logb 2 10 := by
    calc (3:ℝ) = Real.logb 2 8 := h8.symm
      _ ≤ Real.logb 2 10 :=
        Real.logb_le_logb_of_le (by norm_num) (by norm_num) (by norm_num)
  have htA : (1:ℝ) / 10000000000000 *
      Real.logb 2 ((1:ℝ) / 10000000000000 / klEps) ≤
      -((3:ℝ) / 10000000000000) := by
    rw [hxA, show ((1:ℝ) / 10) = (10:ℝ)⁻¹ from by norm_num, Real.logb_inv]
    have h1 : (1:ℝ) / 10000000000000 * -Real.logb 2 10 ≤
        (1:ℝ) / 10000000000000 * -(3:ℝ) :=
      mul_le_mul_of_nonneg_left (neg_le_neg hlogb10) (by norm_num)
    linarith
  have htB : (9999999999999:ℝ) / 10000000000000 *
      Real.logb 2 ((9999999999999:ℝ) / 10000000000000 /
        ((1:ℝ) / 2 * ((9999999999999:ℝ) / 10000000000000 + 1))) ≤ 0 := by
    have hlb : Real.logb 2 ((9999999999999:ℝ) / 10000000000000 /
        ((1:ℝ) / 2 * ((9999999999999:ℝ) / 10000000000000 + 1))) ≤ 0 := by
      refine Real.logb_nonpos (by norm_num) (by positivity) ?_
      rw [div_le_one (by norm_num)]
      norm_num
    calc (9999999999999:ℝ) / 10000000000000 *
        Real.logb 2 ((9999999999999:ℝ) / 10000000000000 /
          ((1:ℝ) / 2 * ((9999999999999:ℝ) / 10000000000000 + 1))) ≤
        (9999999999999:ℝ) / 10000000000000 * 0 :=
          mul_le_mul_of_nonneg_left hlb (by norm_num)
      _ = 0 := mul_zero _
  have htC : (1:ℝ) * Real.logb 2
      ((1:ℝ) / ((1:ℝ) / 2 * ((9999999999999:ℝ) / 10000000000000 + 1))) ≤
      (3:ℝ) / 20000000000000 := by
    rw [one_mul, show ((1:ℝ) / ((1:ℝ) / 2 *
        ((9999999999999:ℝ) / 10000000000000 + 1))) =
        (20000000000000:ℝ) / 19999999999999 from by norm_num]
    have hlog : Real.log ((20000000000000:ℝ) / 19999999999999) ≤
        (1:ℝ) / 19999999999999 := by
      have h1 := Real.log_le_sub_one_of_pos
        (show (0:ℝ) < (20000000000000:ℝ) / 19999999999999 by norm_num)
      have h2 : (20000000000000:ℝ) / 19999999999999 - 1 =
          (1:ℝ) / 19999999999999 := by norm_num
      linarith
    have hlog2 := Real.log_two_gt_d9
    have hpos : (0:ℝ) < Real.log 2 := Real.log_pos (by norm_num)
    rw [Real.logb]
    calc Real.log ((20000000000000:ℝ) / 19999999999999) / Real.log 2 ≤
        ((1:ℝ) / 19999999999999) / Real.log 2 := by gcongr
      _ ≤ ((1:ℝ) / 19999999999999) / 0.6931471803 := by gcongr
      _ ≤ (3:ℝ) / 20000000000000 := by norm_num
  linarith

end SpamRectifier
